import Mathlib

/-!
# Verification of the dotcodeschool CLI reconciliation engine and state machines

This file gives a shallow embedding, in Lean 4, of the persistent test-state
reconciliation engine (`src/db.rs`), the execution state machine
(`src/runner/v1.rs`), the structural validators (`src/validator/v1.rs` and
`cli/src/validator/v2.rs`), and the test-identity derivation
(`src/models.rs::TesterDefinition::list_tests`), together with theorems about
the specified properties.

Modelling conventions:
* The sled tree is modelled as a function from byte-string keys to optional
  byte-string values (`Store`).  `Tree::insert`, `Tree::remove` and
  `Tree::get` become `storeInsert`, `storeRemove` and `storeGet`.
* SCALE (parity-scale-codec) encoding of strings, vectors of strings, `i64`
  and `u32` is implemented at the byte level (`scaleCompact`,
  `scaleEncodeBytes`, `scaleEncodeVecBytes`, `scaleEncodeI64`,
  `scaleEncodeU32`), because `db_update` removes deprecated records under
  `key.encode()` while records are inserted under the raw key bytes; this
  byte-level distinction is essential to the reconciliation claims.
* Rust panics (`unwrap` on a corrupt store entry, out-of-bounds indexing)
  are modelled by `Option` results or by transitions that stop the machine;
  every theorem below either proves such situations unreachable or carries a
  well-formedness hypothesis ruling them out.
* I/O effects (terminal output, hooks, websocket sends, child processes) do
  not influence the data or control flow being verified except where noted;
  where the success or failure of a send *does* influence control flow
  (`runner/v1.rs`), it is supplied by an environment oracle.
-/

/-- Byte strings (sled keys and values).  Elements are byte values. -/
abbrev Bytes := List Nat

/-- A sled tree: a mutable map from byte-string keys to byte-string values,
modelled as a function. -/
def Store := Bytes → Option Bytes

/-- The empty tree. -/
def storeEmpty : Store := fun _ => none

/-- `Tree::get`. -/
def storeGet (t : Store) (k : Bytes) : Option Bytes := t k

/-- `Tree::insert` (insert or overwrite). -/
def storeInsert (t : Store) (k v : Bytes) : Store :=
  fun q => if q = k then some v else t q

/-- `Tree::remove`. -/
def storeRemove (t : Store) (k : Bytes) : Store :=
  fun q => if q = k then none else t q

/-- Reserved key `b"time_last_modified"` (`db.rs::KEY_TIME`), as ASCII
bytes. -/
def KEY_TIME : Bytes :=
  [116, 105, 109, 101, 95, 108, 97, 115, 116, 95, 109, 111, 100, 105, 102,
    105, 101, 100]

/-- Reserved key `b"tests"` (`db.rs::KEY_TESTS`), as ASCII bytes. -/
def KEY_TESTS : Bytes := [116, 101, 115, 116, 115]

/-- Reserved key `b"staggered"` (`db.rs::KEY_STAGGERED`), as ASCII bytes. -/
def KEY_STAGGERED : Bytes := [115, 116, 97, 103, 103, 101, 114, 101, 100]

/-- Reserved key `b"metadata"` (`db.rs::KEY_METADATA`), as ASCII bytes. -/
def KEY_METADATA : Bytes := [109, 101, 116, 97, 100, 97, 116, 97]

/-! ## SCALE encoding (parity-scale-codec) -/

/-- Little-endian byte decomposition of `n`, `w` bytes wide. -/
def natToLEBytes : Nat → Nat → Bytes
  | 0, _ => []
  | w + 1, n => n % 256 :: natToLEBytes w (n / 256)

/-- Little-endian byte recomposition (inverse of `natToLEBytes` on canonical
byte lists). -/
def leBytesToNat : Bytes → Nat
  | [] => 0
  | b :: bs => b + 256 * leBytesToNat bs

/-- Number of bytes needed to represent `n` (used only by the big-integer
mode of the compact encoding). -/
def byteLen (n : Nat) : Nat := Nat.log 256 n + 1

/-- SCALE compact encoding of a natural number (`Compact<u32>`-style, with
the big-integer mode included for completeness). -/
def scaleCompact (n : Nat) : Bytes :=
  if n < 64 then [n * 4]
  else if n < 2 ^ 14 then natToLEBytes 2 (n * 4 + 1)
  else if n < 2 ^ 30 then natToLEBytes 4 (n * 4 + 2)
  else ((byteLen n - 4) * 4 + 3) :: natToLEBytes (byteLen n) n

/-- SCALE compact decoding; returns the value and the remaining input.
Non-canonical encodings are rejected, as in parity-scale-codec. -/
def scaleDecodeCompact : Bytes → Option (Nat × Bytes)
  | [] => none
  | b :: rest =>
    if b % 4 = 0 then some (b / 4, rest)
    else if b % 4 = 1 then
      match rest with
      | b2 :: rest2 =>
        let m := leBytesToNat [b, b2]
        if 64 ≤ m / 4 ∧ m / 4 < 2 ^ 14 then some (m / 4, rest2) else none
      | [] => none
    else if b % 4 = 2 then
      match rest with
      | b2 :: b3 :: b4 :: rest4 =>
        let m := leBytesToNat [b, b2, b3, b4]
        if 2 ^ 14 ≤ m / 4 ∧ m / 4 < 2 ^ 30 then some (m / 4, rest4) else none
      | _ => none
    else
      let count := b / 4 + 4
      if _h : count ≤ rest.length then
        let m := leBytesToNat (rest.take count)
        if 2 ^ 30 ≤ m then some (m, rest.drop count) else none
      else none

/-- SCALE encoding of a `String` / `Vec<u8>`: compact length followed by the
raw bytes. -/
def scaleEncodeBytes (s : Bytes) : Bytes := scaleCompact s.length ++ s

/-- SCALE encoding of a `Vec<String>`: compact item count followed by the
encodings of the items. -/
def scaleEncodeVecBytes (ss : List Bytes) : Bytes :=
  scaleCompact ss.length ++ (ss.map scaleEncodeBytes).flatten

/-- Decode one SCALE `String`, returning it and the remaining input. -/
def scaleDecodeOneStr (l : Bytes) : Option (Bytes × Bytes) :=
  match scaleDecodeCompact l with
  | none => none
  | some (len, rest) =>
      if len ≤ rest.length then some (rest.take len, rest.drop len) else none

/-- Decode `n` consecutive SCALE `String`s. -/
def scaleDecodeItems : Nat → Bytes → Option (List Bytes × Bytes)
  | 0, l => some ([], l)
  | n + 1, l =>
    match scaleDecodeOneStr l with
    | none => none
    | some (s, rest) =>
      match scaleDecodeItems n rest with
      | none => none
      | some (ss, rest2) => some (s :: ss, rest2)

/-- Decode a SCALE `Vec<String>` (trailing input is ignored, as
`Decode::decode` does not require the input to be exhausted). -/
def scaleDecodeVecBytes (l : Bytes) : Option (List Bytes) :=
  match scaleDecodeCompact l with
  | none => none
  | some (n, rest) =>
    match scaleDecodeItems n rest with
    | none => none
    | some (ss, _) => some ss

/-- SCALE encoding of an `i64` value (8-byte little-endian twos-complement). -/
def scaleEncodeI64 (t : Int) : Bytes := natToLEBytes 8 (t % 2 ^ 64).toNat

/-- SCALE decoding of an `i64` value. -/
def scaleDecodeI64 (l : Bytes) : Option Int :=
  if l.length = 8 then
    let n := leBytesToNat l
    some (if n < 2 ^ 63 then (n : Int) else (n : Int) - 2 ^ 64)
  else none

/-- SCALE encoding of a `u32` value (4-byte little-endian). -/
def scaleEncodeU32 (n : Nat) : Bytes := natToLEBytes 4 (n % 2 ^ 32)

/-! ## The Test Registry (`db.rs`)

`db_should_update` and `db_update` are faithful translations of the functions
of the same names in `src/db.rs`.  Sled errors (`DbGet`, `DbInsert`,
`DbRemove`) cannot occur in the pure store model; the filesystem `stat` call
of `db_should_update` is supplied as an `Option Int` (`none` models a failed
`std::fs::metadata`, producing `DbError::DbUpdateCheck`).  The `.unwrap()`
panics on undecodable stored values are modelled by a `none` result of the
whole operation. -/

/-- Result of `db_should_update`: either the `DbUpdateCheck` stat error, or
the updated tree together with the returned boolean. -/
inductive UpdCheck where
  | ioErr : UpdCheck
  | ok : Store → Bool → UpdCheck

/-- `db.rs::db_should_update`.  `stat` is the modification time of the
course file, or `none` when the `std::fs::metadata` call fails.  The outer
`Option` models the `unwrap` panic on an undecodable stored watermark. -/
def db_should_update (tree : Store) (stat : Option Int) : Option UpdCheck :=
  match stat with
  | none => some .ioErr
  | some time_last_modified =>
    match storeGet tree KEY_TIME with
    | none =>
        some (.ok (storeInsert tree KEY_TIME
          (scaleEncodeI64 time_last_modified)) true)
    | some bytes =>
      match scaleDecodeI64 bytes with
      | none => none
      | some time_store =>
          some (.ok (storeInsert tree KEY_TIME
            (scaleEncodeI64 time_last_modified))
            (decide (time_store < time_last_modified)))

/-- `IndexSet` collection from an iterator: keeps the first occurrence of
each element, in encounter order. -/
def dedupFirst : List Bytes → List Bytes
  | [] => []
  | k :: ks => k :: (dedupFirst ks).filter (fun x => decide (x ≠ k))

/-- First-match association lookup (`IndexMap::get`). -/
def lookupPair (m : List (Bytes × Bytes)) (k : Bytes) : Option Bytes :=
  match m with
  | [] => none
  | (k', v) :: rest => if k = k' then some v else lookupPair rest k

/-- `db.rs::db_update`.  `tests_new` is the `IndexMap<String, TestState>` in
iteration order, with each record already SCALE-encoded (the function only
ever stores `test.encode()` and never inspects the record).  `metadata` is
the encoded `CourseMetaData`.  The outer `Option` models the `unwrap` panic
on an undecodable stored test index.

Note the asymmetry taken verbatim from the source: records are inserted
under the *raw* key bytes (`tree.insert(key, …)` where `key: &String`), but
deprecated records are removed under the *SCALE-encoded* key
(`let key = key_str.encode(); tree.remove(&key)`). -/
def db_update (tree : Store) (tests_new : List (Bytes × Bytes))
    (metadata : Bytes) : Option Store :=
  let tree1 := storeInsert tree KEY_METADATA metadata
  match storeGet tree1 KEY_TESTS with
  | some bytes =>
    match scaleDecodeVecBytes bytes with
    | none => none
    | some tests_old =>
      let tests_keys_old := dedupFirst tests_old
      let tests_keys_new := dedupFirst (tests_new.map Prod.fst)
      let test_keys_deprecated :=
        tests_keys_old.filter (fun k => decide (k ∉ tests_keys_new))
      let tree2 := test_keys_deprecated.foldl
        (fun t k => storeRemove t (scaleEncodeBytes k)) tree1
      let tests_keys_unkown :=
        tests_keys_new.filter (fun k => decide (k ∉ tests_keys_old))
      let tree3 := tests_keys_unkown.foldl
        (fun t k =>
          match lookupPair tests_new k with
          | some v => storeInsert t k v
          | none => t) tree2
      some (storeInsert tree3 KEY_TESTS (scaleEncodeVecBytes tests_keys_new))
  | none =>
      let tree2 := tests_new.foldl (fun t kv => storeInsert t kv.1 kv.2) tree1
      some (storeInsert tree2 KEY_TESTS
        (scaleEncodeVecBytes (tests_new.map Prod.fst)))

/-! ## The Execution State Machine (`runner/v1.rs`)

`RunnerV1` holds the ordered test subset, the success counter and the
current state; the progress bar, sled tree, websocket client, target
directory and the three hook closures influence only effects, not the
transition logic, except where a sled update or a websocket send *fails* —
those outcomes are supplied by the `RunnerEnv` oracle, indexed by the test
position:
* `exec i`   — does `tests[i].run(target)` return `TestResult::Pass`?
* `dbOk i`   — does `tree.update_and_fetch(key, …)` return `Ok(Some(_))`?
* `logOk i`  — does `json_report_test` (the `log` frame) return `Ok(())`?
* `logErr i` — the `e.to_string()` message when `logOk i` is false.
* `statusOk`/`closeOk` — outcomes of the final `status`/`disconnect`
  frames; the source only prints a warning on their failure, so they do not
  appear in the transition function at all. -/

/-- The per-run environment oracle (test outcomes and effect results). -/
structure RunnerEnv where
  exec : Nat → Bool
  dbOk : Nat → Bool
  logOk : Nat → Bool
  logErr : Nat → String
  statusOk : Bool
  closeOk : Bool

/-- The fields of a `TestState` that the runner transition logic reads
(`name` feeds the error messages, `optional` the short-circuit rule; the
slug, messages, command and path feed only display and the streamed
payload). -/
structure RunnerTest where
  name : String
  optional : Bool
deriving DecidableEq

/-- `runner/v1.rs::RunnerStateV1`. -/
inductive RunnerStateV1 where
  | Loaded : RunnerStateV1
  | NewTest : Nat → RunnerStateV1
  | Fail : Nat → String → RunnerStateV1
  | Pass : RunnerStateV1
  | Finish : RunnerStateV1
deriving DecidableEq

/-- The runner fields that the transition logic reads and writes. -/
structure RunnerV1 where
  tests : List RunnerTest
  success : Nat
  state : RunnerStateV1
deriving DecidableEq

/-- `RunnerV1Builder::new().tests(ts).build()`: success 0, state Loaded. -/
def runnerInit (ts : List RunnerTest) : RunnerV1 :=
  { tests := ts, success := 0, state := .Loaded }

/-- One application of `<RunnerV1 as StateMachine>::run`.  The out-of-range
`NewTest` case models the Rust index panic by stopping the machine; it is
unreachable from `Loaded`. -/
def runnerStep (env : RunnerEnv) (r : RunnerV1) : RunnerV1 :=
  match r.state with
  | .Loaded =>
      if r.tests.isEmpty then
        { r with state := .Fail 0 "🚫 no tests found" }
      else
        { r with state := .NewTest 0 }
  | .NewTest i =>
    match r.tests[i]? with
    | none => { r with state := .Finish }
    | some t =>
      if env.exec i then
        if env.dbOk i = false then
          { r with state := .Fail i ("failed to update test " ++ t.name) }
        else if env.logOk i = false then
          { r with state := .Fail i (env.logErr i) }
        else if i + 1 < r.tests.length then
          { r with success := r.success + 1, state := .NewTest (i + 1) }
        else
          { r with success := r.success + 1, state := .Pass }
      else
        if env.dbOk i = false then
          { r with state := .Fail i ("failed to update test " ++ t.name) }
        else if env.logOk i = false then
          { r with state := .Fail i (env.logErr i) }
        else if t.optional = false then
          { r with state :=
              .Fail i ("Test " ++ toString i ++ ":" ++ t.name ++ " failed") }
        else if i + 1 < r.tests.length then
          { r with state := .NewTest (i + 1) }
        else
          { r with state := .Pass }
  | .Fail _ _ => { r with state := .Finish }
  | .Pass => { r with state := .Finish }
  | .Finish => r

/-- The driver loop of `main.rs` applies `run` repeatedly; `runnerStepN env
n r` is the machine after `n` applications. -/
def runnerStepN (env : RunnerEnv) : Nat → RunnerV1 → RunnerV1
  | 0, r => r
  | n + 1, r => runnerStepN env n (runnerStep env r)

/-- Number of passing tests among the first `n` (the value of the success
counter). -/
def countExec (env : RunnerEnv) (n : Nat) : Nat :=
  (List.range n).countP (fun j => env.exec j)

/-- The score displayed in the `Pass` state.  The source computes
`success as f64 / tests.len() as f64 * 100f64`; the rational value below is
the exact real-number semantics of that expression (the numeric
instances are exactly representable in `f64`). -/
def runnerScore (r : RunnerV1) : ℚ :=
  (r.success : ℚ) / (r.tests.length : ℚ) * 100

/-- The termination measure of the driver loop. -/
def runnerFuel (r : RunnerV1) : Nat :=
  match r.state with
  | .Loaded => r.tests.length + 2
  | .NewTest i => r.tests.length - i + 1
  | .Fail _ _ => 1
  | .Pass => 1
  | .Finish => 0

/-- Environment for the score example: test at index 2 fails, all other
effects succeed. -/
def scoreEnv : RunnerEnv :=
  ⟨fun j => decide (j ≠ 2), fun _ => true, fun _ => true, fun _ => "",
    true, true⟩

/-- Test list for the score example: five tests, the third optional. -/
def scoreTests : List RunnerTest :=
  [⟨"t1", false⟩, ⟨"t2", false⟩, ⟨"t3", true⟩, ⟨"t4", false⟩, ⟨"t5", false⟩]

/-- `format!("0x{}", hash(&path))`. -/
def expectedSlug (hf : List String → String) (path : List String) : String :=
  "0x" ++ hf path

/-- The `Invalid slug` failure reason: quotes the declared slug, then the
expected slug (verbatim from the `format!` in the source). -/
def invalidSlugMsg (declared expected : String) : String :=
  "Invalid slug: \x27" ++ declared ++ "\x27, expected \x27" ++ expected ++ "\x27"

/-- `cli/src/parsing/v2.rs::JsonTestV2` (the fields the validator reads). -/
structure JsonTestV2 where
  name : String
  slug : String
deriving DecidableEq

/-- `cli/src/parsing/v2.rs::JsonTestSuiteV2` (validator-relevant fields). -/
structure JsonTestSuiteV2 where
  name : String
  slug : String
  tests : List JsonTestV2
deriving DecidableEq

/-- `cli/src/parsing/v2.rs::JsonLessonV2` (validator-relevant fields). -/
structure JsonLessonV2 where
  name : String
  slug : String
  suites : Option (List JsonTestSuiteV2)
deriving DecidableEq

/-- `cli/src/parsing/v2.rs::JsonStageV2` (validator-relevant fields). -/
structure JsonStageV2 where
  name : String
  slug : String
  lessons : List JsonLessonV2
deriving DecidableEq

/-- `cli/src/parsing/v2.rs::JsonCourseV2` (validator-relevant fields). -/
structure JsonCourseV2 where
  name : String
  slug : String
  stages : List JsonStageV2
deriving DecidableEq

/-- `cli/src/validator/v2.rs::ValidatorStateV2`. -/
inductive ValidatorStateV2 where
  | Loaded : ValidatorStateV2
  | Course : ValidatorStateV2
  | Stage : Nat → ValidatorStateV2
  | Lesson : Nat → Nat → ValidatorStateV2
  | Suite : Nat → Nat → Nat → ValidatorStateV2
  | Test : Nat → Nat → Nat → Nat → ValidatorStateV2
  | Fail : String → ValidatorStateV2
  | Pass : ValidatorStateV2
  | Finish : ValidatorStateV2
deriving DecidableEq

/-- One application of `<ValidatorV2 as Validator>::run`. -/
def validatorStepV2 (hf : List String → String) (c : JsonCourseV2) :
    ValidatorStateV2 → ValidatorStateV2
  | .Loaded => .Course
  | .Course =>
    let exp := expectedSlug hf [c.name]
    if c.slug ≠ exp then .Fail (invalidSlugMsg c.slug exp)
    else .Stage 0
  | .Stage i =>
    match c.stages[i]? with
    | none => .Finish
    | some stage =>
      let exp := expectedSlug hf [c.name, stage.name]
      if stage.slug ≠ exp then .Fail (invalidSlugMsg stage.slug exp)
      else .Lesson i 0
  | .Lesson i j =>
    match c.stages[i]? with
    | none => .Finish
    | some stage =>
      match stage.lessons[j]? with
      | none => .Finish
      | some lesson =>
        let exp := expectedSlug hf [c.name, stage.name, lesson.name]
        if lesson.slug ≠ exp then .Fail (invalidSlugMsg lesson.slug exp)
        else
          match lesson.suites with
          | some _ => .Suite i j 0
          | none =>
            if j + 1 < stage.lessons.length then .Lesson i (j + 1)
            else if i + 1 < c.stages.length then .Stage (i + 1)
            else .Pass
  | .Suite i j k =>
    match c.stages[i]? with
    | none => .Finish
    | some stage =>
      match stage.lessons[j]? with
      | none => .Finish
      | some lesson =>
        match lesson.suites with
        | none => .Finish
        | some suites =>
          match suites[k]? with
          | none => .Finish
          | some suite =>
            let exp :=
              expectedSlug hf [c.name, stage.name, lesson.name, suite.name]
            if suite.slug ≠ exp then .Fail (invalidSlugMsg suite.slug exp)
            else .Test i j k 0
  | .Test i j k l =>
    match c.stages[i]? with
    | none => .Finish
    | some stage =>
      match stage.lessons[j]? with
      | none => .Finish
      | some lesson =>
        match lesson.suites with
        | none => .Finish
        | some suites =>
          match suites[k]? with
          | none => .Finish
          | some suite =>
            match suite.tests[l]? with
            | none => .Finish
            | some test =>
              let exp := expectedSlug hf
                [c.name, stage.name, lesson.name, suite.name, test.name]
              if test.slug ≠ exp then .Fail (invalidSlugMsg test.slug exp)
              else
                if l + 1 < suite.tests.length then .Test i j k (l + 1)
                else if k + 1 < suites.length then .Suite i j (k + 1)
                else if j + 1 < stage.lessons.length then .Lesson i (j + 1)
                else if i + 1 < c.stages.length then .Stage (i + 1)
                else .Pass
  | .Fail _ => .Finish
  | .Pass => .Finish
  | .Finish => .Finish

/-- Iterated validator steps (the `while !validator.is_finished()` loop). -/
def validatorStepNV2 (hf : List String → String) (c : JsonCourseV2) :
    Nat → ValidatorStateV2 → ValidatorStateV2
  | 0, s => s
  | n + 1, s => validatorStepNV2 hf c n (validatorStepV2 hf c s)

/-- A checked node: its ordered name-path from the course root, and its
declared slug. -/
abbrev SlugNode := List String × String

/-- The nodes contributed by one suite (the suite itself, then its tests). -/
def suiteNodes (pre : List String) (s : JsonTestSuiteV2) : List SlugNode :=
  (pre ++ [s.name], s.slug) ::
    s.tests.map (fun t => (pre ++ [s.name, t.name], t.slug))

/-- The suites of a lesson (empty when the lesson has none). -/
def suitesOf (l : JsonLessonV2) : List JsonTestSuiteV2 := l.suites.getD []

/-- The nodes contributed by one lesson. -/
def lessonNodes (pre : List String) (l : JsonLessonV2) : List SlugNode :=
  (pre ++ [l.name], l.slug) ::
    ((suitesOf l).map (suiteNodes (pre ++ [l.name]))).flatten

/-- The nodes contributed by one stage. -/
def stageNodes (cname : String) (st : JsonStageV2) : List SlugNode :=
  ([cname, st.name], st.slug) ::
    (st.lessons.map (lessonNodes [cname, st.name])).flatten

/-- Every node of the course tree, in traversal order. -/
def courseNodes (c : JsonCourseV2) : List SlugNode :=
  ([c.name], c.slug) :: (c.stages.map (stageNodes c.name)).flatten

/-- The nodes the machine has yet to check from a given state. -/
def remNodes (c : JsonCourseV2) : ValidatorStateV2 → List SlugNode
  | .Loaded => courseNodes c
  | .Course => courseNodes c
  | .Stage i => ((c.stages.drop i).map (stageNodes c.name)).flatten
  | .Lesson i j =>
    match c.stages[i]? with
    | none => []
    | some st =>
        ((st.lessons.drop j).map (lessonNodes [c.name, st.name])).flatten ++
          ((c.stages.drop (i + 1)).map (stageNodes c.name)).flatten
  | .Suite i j k =>
    match c.stages[i]? with
    | none => []
    | some st =>
      match st.lessons[j]? with
      | none => []
      | some les =>
          (((suitesOf les).drop k).map
            (suiteNodes [c.name, st.name, les.name])).flatten ++
          ((st.lessons.drop (j + 1)).map
            (lessonNodes [c.name, st.name])).flatten ++
          ((c.stages.drop (i + 1)).map (stageNodes c.name)).flatten
  | .Test i j k l =>
    match c.stages[i]? with
    | none => []
    | some st =>
      match st.lessons[j]? with
      | none => []
      | some les =>
        match (suitesOf les)[k]? with
        | none => []
        | some su =>
            ((su.tests.drop l).map (fun t =>
              ([c.name, st.name, les.name, su.name, t.name], t.slug))) ++
            (((suitesOf les).drop (k + 1)).map
              (suiteNodes [c.name, st.name, les.name])).flatten ++
            ((st.lessons.drop (j + 1)).map
              (lessonNodes [c.name, st.name])).flatten ++
            ((c.stages.drop (i + 1)).map (stageNodes c.name)).flatten
  | .Fail _ => []
  | .Pass => []
  | .Finish => []

/-! ### ValidatorV1 (`src/validator/v1.rs`)

`ValidatorV1` walks `tester.sections` (a `TesterDefinition`) together with
a `JsonCourseV1` whose `name` seeds the hashes.  Its `Course` and `Section`
states print the declared slug with a checkmark but perform *no*
comparison: only the lesson, suite and test levels are checked. -/

/-- `src/parsing/v1/mod.rs::JsonCourseV1` (validator-relevant fields). -/
structure JsonCourseV1 where
  name : String
  slug : String
deriving DecidableEq

/-- A test of the tester definition (validator-relevant fields). -/
structure JsonTestV1 where
  name : String
  slug : String
deriving DecidableEq

/-- A test suite of the tester definition (validator-relevant fields). -/
structure JsonTestSuiteV1 where
  name : String
  slug : String
  tests : List JsonTestV1
deriving DecidableEq

/-- A lesson of the tester definition (validator-relevant fields). -/
structure JsonLessonV1 where
  name : String
  slug : String
  suites : Option (List JsonTestSuiteV1)
deriving DecidableEq

/-- A section of the tester definition (validator-relevant fields). -/
structure JsonSectionV1 where
  name : String
  slug : String
  lessons : List JsonLessonV1
deriving DecidableEq

/-- `src/models.rs::TesterDefinition` (validator-relevant fields). -/
structure TesterDefinition where
  sections : List JsonSectionV1
deriving DecidableEq

/-- `src/validator/v1.rs::ValidatorStateV1`. -/
inductive ValidatorStateV1 where
  | Loaded : ValidatorStateV1
  | Course : ValidatorStateV1
  | Section : Nat → ValidatorStateV1
  | Lesson : Nat → Nat → ValidatorStateV1
  | Suite : Nat → Nat → Nat → ValidatorStateV1
  | Test : Nat → Nat → Nat → Nat → ValidatorStateV1
  | Fail : String → ValidatorStateV1
  | Pass : ValidatorStateV1
  | Finish : ValidatorStateV1
deriving DecidableEq

/-- One application of `<ValidatorV1 as StateMachine>::run`.  Note that the
`Course` and `Section` cases advance unconditionally: the source merely
prints the declared slug with a "✅" and never compares it. -/
def validatorStepV1 (hf : List String → String) (course : JsonCourseV1)
    (tester : TesterDefinition) : ValidatorStateV1 → ValidatorStateV1
  | .Loaded => .Course
  | .Course => .Section 0
  | .Section i =>
    match tester.sections[i]? with
    | none => .Finish
    | some _ => .Lesson i 0
  | .Lesson i j =>
    match tester.sections[i]? with
    | none => .Finish
    | some sec =>
      match sec.lessons[j]? with
      | none => .Finish
      | some lesson =>
        let exp := expectedSlug hf [course.name, sec.name, lesson.name]
        if lesson.slug ≠ exp then .Fail (invalidSlugMsg lesson.slug exp)
        else
          match lesson.suites with
          | some _ => .Suite i j 0
          | none =>
            if j + 1 < sec.lessons.length then .Lesson i (j + 1)
            else if i + 1 < tester.sections.length then .Section (i + 1)
            else .Pass
  | .Suite i j k =>
    match tester.sections[i]? with
    | none => .Finish
    | some sec =>
      match sec.lessons[j]? with
      | none => .Finish
      | some lesson =>
        match lesson.suites with
        | none => .Finish
        | some suites =>
          match suites[k]? with
          | none => .Finish
          | some suite =>
            let exp :=
              expectedSlug hf [course.name, sec.name, lesson.name, suite.name]
            if suite.slug ≠ exp then .Fail (invalidSlugMsg suite.slug exp)
            else .Test i j k 0
  | .Test i j k l =>
    match tester.sections[i]? with
    | none => .Finish
    | some sec =>
      match sec.lessons[j]? with
      | none => .Finish
      | some lesson =>
        match lesson.suites with
        | none => .Finish
        | some suites =>
          match suites[k]? with
          | none => .Finish
          | some suite =>
            match suite.tests[l]? with
            | none => .Finish
            | some test =>
              let exp := expectedSlug hf
                [course.name, sec.name, lesson.name, suite.name, test.name]
              if test.slug ≠ exp then .Fail (invalidSlugMsg test.slug exp)
              else
                if l + 1 < suite.tests.length then .Test i j k (l + 1)
                else if k + 1 < suites.length then .Suite i j (k + 1)
                else if j + 1 < sec.lessons.length then .Lesson i (j + 1)
                else if i + 1 < tester.sections.length then .Section (i + 1)
                else .Pass
  | .Fail _ => .Finish
  | .Pass => .Finish
  | .Finish => .Finish

/-- Iterated `ValidatorV1` steps. -/
def validatorStepNV1 (hf : List String → String) (course : JsonCourseV1)
    (tester : TesterDefinition) : Nat → ValidatorStateV1 → ValidatorStateV1
  | 0, s => s
  | n + 1, s => validatorStepNV1 hf course tester n
      (validatorStepV1 hf course tester s)

/-- The nodes contributed by one suite of the tester definition. -/
def suiteNodesV1 (pre : List String) (s : JsonTestSuiteV1) : List SlugNode :=
  (pre ++ [s.name], s.slug) ::
    s.tests.map (fun t => (pre ++ [s.name, t.name], t.slug))

/-- The suites of a lesson of the tester definition. -/
def suitesOfV1 (l : JsonLessonV1) : List JsonTestSuiteV1 := l.suites.getD []

/-- The nodes contributed by one lesson of the tester definition. -/
def lessonNodesV1 (pre : List String) (l : JsonLessonV1) : List SlugNode :=
  (pre ++ [l.name], l.slug) ::
    ((suitesOfV1 l).map (suiteNodesV1 (pre ++ [l.name]))).flatten

/-- The nodes contributed by one section: `ValidatorV1` checks no section
node, so only the lessons below it contribute. -/
def sectionNodesV1 (cname : String) (sec : JsonSectionV1) : List SlugNode :=
  (sec.lessons.map (lessonNodesV1 [cname, sec.name])).flatten

/-- Every node `ValidatorV1` checks, in traversal order: lesson, suite and
test nodes only — no course or section node. -/
def courseNodesV1 (course : JsonCourseV1) (tester : TesterDefinition) :
    List SlugNode :=
  (tester.sections.map (sectionNodesV1 course.name)).flatten

/-- The nodes `ValidatorV1` has yet to check from a given state. -/
def remNodesV1 (course : JsonCourseV1) (tester : TesterDefinition) :
    ValidatorStateV1 → List SlugNode
  | .Loaded => courseNodesV1 course tester
  | .Course => courseNodesV1 course tester
  | .Section i =>
      ((tester.sections.drop i).map (sectionNodesV1 course.name)).flatten
  | .Lesson i j =>
    match tester.sections[i]? with
    | none => []
    | some sec =>
        ((sec.lessons.drop j).map
          (lessonNodesV1 [course.name, sec.name])).flatten ++
        ((tester.sections.drop (i + 1)).map
          (sectionNodesV1 course.name)).flatten
  | .Suite i j k =>
    match tester.sections[i]? with
    | none => []
    | some sec =>
      match sec.lessons[j]? with
      | none => []
      | some les =>
          (((suitesOfV1 les).drop k).map
            (suiteNodesV1 [course.name, sec.name, les.name])).flatten ++
          ((sec.lessons.drop (j + 1)).map
            (lessonNodesV1 [course.name, sec.name])).flatten ++
          ((tester.sections.drop (i + 1)).map
            (sectionNodesV1 course.name)).flatten
  | .Test i j k l =>
    match tester.sections[i]? with
    | none => []
    | some sec =>
      match sec.lessons[j]? with
      | none => []
      | some les =>
        match (suitesOfV1 les)[k]? with
        | none => []
        | some su =>
            ((su.tests.drop l).map (fun t =>
              ([course.name, sec.name, les.name, su.name, t.name],
                t.slug))) ++
            (((suitesOfV1 les).drop (k + 1)).map
              (suiteNodesV1 [course.name, sec.name, les.name])).flatten ++
            ((sec.lessons.drop (j + 1)).map
              (lessonNodesV1 [course.name, sec.name])).flatten ++
            ((tester.sections.drop (i + 1)).map
              (sectionNodesV1 course.name)).flatten
  | .Fail _ => []
  | .Pass => []
  | .Finish => []

/-! ## Test-identity derivation (`src/models.rs::TesterDefinition::list_tests`)

In this (later) schema the store key of a test is the literal lowercase
concatenation of the names in *leaf-to-root* order: test, lesson, section,
course.  (`Monitor::into_runner` mirrors this by reversing the
user-supplied `/`-separated root-to-leaf path before joining it into a
search key.)  The tester-definition shape used by `models.rs` and
`monitor.rs` puts tests directly under lessons — unlike the
suites-under-lessons shape `validator/v1.rs` reads — so it is embedded as a
separate family of structures. -/

/-- `db.rs::PathLink`. -/
inductive PathLink where
  | Link : String → PathLink
  | LinkOptional : String → PathLink
deriving DecidableEq

/-- `db.rs::ValidationState` (the source spells the first variant
`Unkown`). -/
inductive ValidationState where
  | Unkown : ValidationState
  | Pass : ValidationState
  | Fail : ValidationState
deriving DecidableEq

/-- `db.rs::TestState` (the record stored per test identity; the
`lesson_slug` field appears in the `models.rs`/`runner` revision of the
struct). -/
structure TestState where
  name : String
  slug : String
  message_on_success : String
  message_on_fail : String
  cmd : List String
  path : List PathLink
  passed : ValidationState
  optional : Bool
  lesson_slug : String
deriving DecidableEq

/-- A test entry of the tester definition (`models.rs` shape). -/
structure JsonTestM where
  name : String
  slug : String
  optional : Bool
  cmd : String
  message_on_fail : String
  message_on_success : String
deriving DecidableEq

/-- A lesson of the tester definition (`models.rs` shape: tests directly
under the lesson, optional). -/
structure JsonLessonM where
  name : String
  slug : String
  tests : Option (List JsonTestM)
deriving DecidableEq

/-- A section of the tester definition (`models.rs` shape). -/
structure JsonSectionM where
  name : String
  slug : String
  lessons : List JsonLessonM
deriving DecidableEq

/-- `src/models.rs::TesterDefinition` (the shape `list_tests` reads). -/
structure TesterDefM where
  sections : List JsonSectionM
  course_name : String
deriving DecidableEq

/-- `IndexMap::insert`: replace in place when the key exists, append
otherwise. -/
def indexMapInsert (m : List (String × TestState)) (k : String)
    (v : TestState) : List (String × TestState) :=
  if m.any (fun p => decide (p.1 = k)) then
    m.map (fun p => if p.1 = k then (p.1, v) else p)
  else m ++ [(k, v)]

/-- `str::to_lowercase`, on its ASCII fragment (every name in the
instances of the claims is ASCII). -/
def strToLower (s : String) : String := ⟨s.data.map Char.toLower⟩

/-- Split a character list on a separator character (the model of the Rust
`split` method). -/
def splitChar (sep : Char) (l : List Char) : List (List Char) :=
  match l with
  | [] => [[]]
  | c :: cs =>
    match splitChar sep cs with
    | [] => [[]]
    | g :: gs => if c = sep then [] :: g :: gs else (c :: g) :: gs

/-- `str::split_whitespace`, modelled for space separators: split on `' '`
and drop empty fragments. -/
def split_whitespace (s : String) : List String :=
  ((splitChar ' ' s.data).filter (fun w => decide (w ≠ []))).map
    (fun w => ⟨w⟩)

/-- The store key `list_tests` computes for one test:
`[test, lesson, section, course].map(to_lowercase).concat()` — leaf to
root. -/
def testKey (course_name : String) (sec : JsonSectionM) (les : JsonLessonM)
    (t : JsonTestM) : String :=
  strToLower t.name ++ strToLower les.name ++ strToLower sec.name ++
    strToLower course_name

/-- The per-test body of `list_tests`: build the key, the argv, the path
(the dead `!test.optional && test.optional` conditional of the source is
kept verbatim) and the fresh `TestState`, and insert it.
`split_whitespace` is modelled for single-space separators (filtering empty
fragments). -/
def insertTest (course_name : String) (sec : JsonSectionM)
    (lesson : JsonLessonM) (acc : List (String × TestState))
    (test : JsonTestM) : List (String × TestState) :=
  let key := testKey course_name sec lesson test
  let cmd := split_whitespace test.cmd
  let path := [PathLink.Link sec.name, PathLink.Link lesson.name,
    if test.optional then PathLink.LinkOptional test.name
    else PathLink.Link test.name,
    if !test.optional && test.optional then PathLink.LinkOptional test.name
    else PathLink.Link test.name]
  indexMapInsert acc key
    { name := test.name, slug := test.slug,
      message_on_success := test.message_on_success,
      message_on_fail := test.message_on_fail, cmd := cmd, path := path,
      passed := .Unkown, optional := test.optional,
      lesson_slug := lesson.slug }

/-- The per-lesson fold of `list_tests` (lessons without tests contribute
nothing). -/
def lessonStep (course_name : String) (sec : JsonSectionM)
    (acc : List (String × TestState)) (lesson : JsonLessonM) :
    List (String × TestState) :=
  match lesson.tests with
  | some tests => tests.foldl (insertTest course_name sec lesson) acc
  | none => acc

/-- The per-section fold of `list_tests`. -/
def sectionStep (course_name : String) (acc : List (String × TestState))
    (sec : JsonSectionM) : List (String × TestState) :=
  sec.lessons.foldl (lessonStep course_name sec) acc

/-- `src/models.rs::TesterDefinition::list_tests`. -/
def list_tests (td : TesterDefM) : List (String × TestState) :=
  td.sections.foldl (sectionStep td.course_name) []

/-- `Monitor::into_runner`: the user-supplied `/`-separated test path is
split, reversed and joined into the store-key search string. -/
def searchKey (test_name : String) : String :=
  ⟨(splitChar '/' test_name.data).reverse.flatten⟩

/-! ## Theorems -/

theorem storeGet_insert_self (t : Store) (k v : Bytes) :
    storeGet (storeInsert t k v) k = some v := by
  simp [storeGet, storeInsert]

theorem storeGet_insert_ne (t : Store) (k v q : Bytes) (h : q ≠ k) :
    storeGet (storeInsert t k v) q = storeGet t q := by
  simp [storeGet, storeInsert, h]

theorem storeGet_remove_self (t : Store) (k : Bytes) :
    storeGet (storeRemove t k) k = none := by
  simp [storeGet, storeRemove]

theorem storeGet_remove_ne (t : Store) (k q : Bytes) (h : q ≠ k) :
    storeGet (storeRemove t k) q = storeGet t q := by
  simp [storeGet, storeRemove, h]

theorem leBytesToNat_natToLEBytes (w n : Nat) :
    leBytesToNat (natToLEBytes w n) = n % 256 ^ w := by
  induction w generalizing n with
  | zero => simp [natToLEBytes, leBytesToNat, Nat.mod_one]
  | succ w ih =>
      rw [natToLEBytes, leBytesToNat, ih]
      rw [pow_succ, mul_comm (256 ^ w) 256, Nat.mod_mul]

theorem scaleDecodeCompact_encode (n : Nat) (hn : n < 2 ^ 30) (rest : Bytes) :
    scaleDecodeCompact (scaleCompact n ++ rest) = some (n, rest) := by
  by_cases h1 : n < 64
  · have hb : n * 4 % 4 = 0 := by omega
    have hd : n * 4 / 4 = n := by omega
    simp [scaleCompact, h1, scaleDecodeCompact, hb, hd]
  · by_cases h2 : n < 2 ^ 14
    · have e2 : scaleCompact n =
          [(n * 4 + 1) % 256, (n * 4 + 1) / 256 % 256] := by
        rw [scaleCompact, if_neg h1, if_pos h2]
        simp [natToLEBytes]
      have hb0 : ¬ (n * 4 + 1) % 256 % 4 = 0 := by omega
      have hb1 : (n * 4 + 1) % 256 % 4 = 1 := by omega
      rw [e2]
      show scaleDecodeCompact ((n * 4 + 1) % 256 ::
        ((n * 4 + 1) / 256 % 256 :: rest)) = some (n, rest)
      rw [scaleDecodeCompact, if_neg hb0, if_pos hb1]
      dsimp only
      have hm : leBytesToNat
          [(n * 4 + 1) % 256, (n * 4 + 1) / 256 % 256] = n * 4 + 1 := by
        simp only [leBytesToNat]
        omega
      rw [hm]
      have hd : (n * 4 + 1) / 4 = n := by omega
      rw [hd, if_pos ⟨by omega, h2⟩]
    · have e4 : scaleCompact n =
          [(n * 4 + 2) % 256, (n * 4 + 2) / 256 % 256,
            (n * 4 + 2) / 256 / 256 % 256,
            (n * 4 + 2) / 256 / 256 / 256 % 256] := by
        rw [scaleCompact, if_neg h1, if_neg h2, if_pos hn]
        simp [natToLEBytes]
      have hb0 : ¬ (n * 4 + 2) % 256 % 4 = 0 := by omega
      have hb1 : ¬ (n * 4 + 2) % 256 % 4 = 1 := by omega
      have hb2 : (n * 4 + 2) % 256 % 4 = 2 := by omega
      rw [e4]
      show scaleDecodeCompact ((n * 4 + 2) % 256 ::
        ((n * 4 + 2) / 256 % 256 :: (n * 4 + 2) / 256 / 256 % 256 ::
          (n * 4 + 2) / 256 / 256 / 256 % 256 :: rest)) = some (n, rest)
      rw [scaleDecodeCompact, if_neg hb0, if_neg hb1, if_pos hb2]
      dsimp only
      have hm : leBytesToNat [(n * 4 + 2) % 256, (n * 4 + 2) / 256 % 256,
          (n * 4 + 2) / 256 / 256 % 256,
          (n * 4 + 2) / 256 / 256 / 256 % 256] = n * 4 + 2 := by
        simp only [leBytesToNat]
        omega
      rw [hm]
      have hd : (n * 4 + 2) / 4 = n := by omega
      rw [hd, if_pos ⟨by omega, hn⟩]

theorem scaleDecodeOneStr_encode (s : Bytes) (hs : s.length < 2 ^ 30)
    (rest : Bytes) :
    scaleDecodeOneStr (scaleEncodeBytes s ++ rest) = some (s, rest) := by
  rw [scaleEncodeBytes, List.append_assoc, scaleDecodeOneStr,
    scaleDecodeCompact_encode s.length hs (s ++ rest)]
  simp

theorem scaleDecodeItems_encode (ss : List Bytes)
    (hs : ∀ s ∈ ss, s.length < 2 ^ 30) (rest : Bytes) :
    scaleDecodeItems ss.length ((ss.map scaleEncodeBytes).flatten ++ rest) =
      some (ss, rest) := by
  induction ss with
  | nil => simp [scaleDecodeItems]
  | cons s ss ih =>
      have h1 : s.length < 2 ^ 30 := hs s (by simp)
      have h2 : ∀ x ∈ ss, x.length < 2 ^ 30 := fun x hx => hs x (by simp [hx])
      simp only [List.map_cons, List.flatten_cons, List.append_assoc,
        List.length_cons]
      rw [scaleDecodeItems, scaleDecodeOneStr_encode s h1]
      dsimp only
      rw [ih h2]

theorem scaleDecodeVecBytes_encode (ss : List Bytes)
    (hlen : ss.length < 2 ^ 30) (hs : ∀ s ∈ ss, s.length < 2 ^ 30) :
    scaleDecodeVecBytes (scaleEncodeVecBytes ss) = some ss := by
  have h := scaleDecodeItems_encode ss hs []
  rw [List.append_nil] at h
  simp only [scaleEncodeVecBytes, scaleDecodeVecBytes,
    scaleDecodeCompact_encode ss.length hlen, h]

theorem natToLEBytes_length (w n : Nat) : (natToLEBytes w n).length = w := by
  induction w generalizing n with
  | zero => simp [natToLEBytes]
  | succ w ih => simp [natToLEBytes, ih]

theorem scaleDecodeI64_encode (t : Int) (h1 : -(2 ^ 63) ≤ t)
    (h2 : t < 2 ^ 63) : scaleDecodeI64 (scaleEncodeI64 t) = some t := by
  have p63 : ((2 : Int) ^ 63) = 9223372036854775808 := by norm_num
  have p64 : ((2 : Int) ^ 64) = 18446744073709551616 := by norm_num
  have p63n : ((2 : Nat) ^ 63) = 9223372036854775808 := by norm_num
  have p2568 : ((256 : Nat) ^ 8) = 18446744073709551616 := by norm_num
  rw [p63] at h1 h2
  have hml : (0 : Int) ≤ t % 18446744073709551616 :=
    Int.emod_nonneg t (by norm_num)
  have hmu : t % 18446744073709551616 < 18446744073709551616 :=
    Int.emod_lt_of_pos t (by norm_num)
  simp only [scaleDecodeI64, scaleEncodeI64, natToLEBytes_length,
    leBytesToNat_natToLEBytes, p63, p64, p63n, p2568, if_true]
  have hm : (t % 18446744073709551616).toNat % 18446744073709551616 =
      (t % 18446744073709551616).toNat := Nat.mod_eq_of_lt (by omega)
  rw [hm]
  by_cases hb : (t % 18446744073709551616).toNat < 9223372036854775808
  · rw [if_pos hb]
    congr 1
    omega
  · rw [if_neg hb]
    congr 1
    omega

theorem mem_dedupFirst (a : Bytes) (l : List Bytes) :
    a ∈ dedupFirst l ↔ a ∈ l := by
  induction l with
  | nil => simp [dedupFirst]
  | cons k ks ih =>
      by_cases hak : a = k
      · simp [dedupFirst, hak]
      · simp [dedupFirst, hak, ih]

/-! ### Frame lemmas for `db_update` -/

theorem foldl_remove_frame (g : Bytes → Bytes) (q : Bytes) :
    ∀ (L : List Bytes) (t : Store), (∀ x ∈ L, g x ≠ q) →
      storeGet (L.foldl (fun t k => storeRemove t (g k)) t) q = storeGet t q
  | [], t, _ => rfl
  | x :: L, t, h => by
      rw [List.foldl_cons,
        foldl_remove_frame g q L _ (fun y hy => h y (by simp [hy])),
        storeGet_remove_ne _ _ _ (Ne.symm (h x (by simp)))]

theorem foldl_insert_lookup_frame (m : List (Bytes × Bytes)) (q : Bytes) :
    ∀ (L : List Bytes) (t : Store), (∀ x ∈ L, x ≠ q) →
      storeGet (L.foldl (fun t k =>
        match lookupPair m k with
        | some v => storeInsert t k v
        | none => t) t) q = storeGet t q
  | [], t, _ => rfl
  | x :: L, t, h => by
      rw [List.foldl_cons,
        foldl_insert_lookup_frame m q L _ (fun y hy => h y (by simp [hy]))]
      cases lookupPair m x with
      | none => rfl
      | some v => exact storeGet_insert_ne _ _ _ _ (Ne.symm (h x (by simp)))

theorem foldl_insert_pairs_frame (q : Bytes) :
    ∀ (L : List (Bytes × Bytes)) (t : Store), (∀ kv ∈ L, kv.1 ≠ q) →
      storeGet (L.foldl (fun t kv => storeInsert t kv.1 kv.2) t) q =
        storeGet t q
  | [], t, _ => rfl
  | x :: L, t, h => by
      rw [List.foldl_cons,
        foldl_insert_pairs_frame q L _ (fun y hy => h y (by simp [hy])),
        storeGet_insert_ne _ _ _ _ (Ne.symm (h x (by simp)))]

/-- Unfolding of `db_update` when the tree already holds a (decodable) test
index: the reconciliation branch of the source. -/
theorem db_update_eq_of_stored (tree : Store)
    (tests_new : List (Bytes × Bytes)) (metadata : Bytes)
    (oldKeys : List Bytes)
    (hstore : storeGet tree KEY_TESTS = some (scaleEncodeVecBytes oldKeys))
    (hlen : oldKeys.length < 2 ^ 30)
    (hkl : ∀ s ∈ oldKeys, s.length < 2 ^ 30) :
    db_update tree tests_new metadata =
      some (storeInsert
        (((dedupFirst (tests_new.map Prod.fst)).filter
            (fun k => decide (k ∉ dedupFirst oldKeys))).foldl
          (fun t k =>
            match lookupPair tests_new k with
            | some v => storeInsert t k v
            | none => t)
          (((dedupFirst oldKeys).filter
              (fun k => decide (k ∉ dedupFirst (tests_new.map Prod.fst)))).foldl
            (fun t k => storeRemove t (scaleEncodeBytes k))
            (storeInsert tree KEY_METADATA metadata)))
        KEY_TESTS (scaleEncodeVecBytes (dedupFirst (tests_new.map Prod.fst)))) := by
  have h1 : storeGet (storeInsert tree KEY_METADATA metadata) KEY_TESTS =
      some (scaleEncodeVecBytes oldKeys) := by
    rw [storeGet_insert_ne _ _ _ _ (by decide), hstore]
  simp only [db_update, h1, scaleDecodeVecBytes_encode oldKeys hlen hkl]

/-- Unfolding of `db_update` when the tree holds no test index yet: the
first-reconciliation branch of the source. -/
theorem db_update_eq_of_empty (tree : Store)
    (tests_new : List (Bytes × Bytes)) (metadata : Bytes)
    (hstore : storeGet tree KEY_TESTS = none) :
    db_update tree tests_new metadata =
      some (storeInsert
        (tests_new.foldl (fun t kv => storeInsert t kv.1 kv.2)
          (storeInsert tree KEY_METADATA metadata))
        KEY_TESTS (scaleEncodeVecBytes (tests_new.map Prod.fst))) := by
  have h1 : storeGet (storeInsert tree KEY_METADATA metadata) KEY_TESTS =
      none := by
    rw [storeGet_insert_ne _ _ _ _ (by decide), hstore]
  simp only [db_update, h1]

/-- The compact encoding of a length below `2 ^ 30` starts with a byte that
is 0, 1 or 2 modulo 4 (the big-integer mode marker 3 needs a value of at
least `2 ^ 30`). -/
theorem scaleCompact_head (n : Nat) (hn : n < 2 ^ 30) :
    ∃ b l, scaleCompact n = b :: l ∧ b % 4 ≠ 3 := by
  by_cases h1 : n < 64
  · exact ⟨n * 4, [], by rw [scaleCompact, if_pos h1], by omega⟩
  · by_cases h2 : n < 2 ^ 14
    · refine ⟨(n * 4 + 1) % 256, [(n * 4 + 1) / 256 % 256], ?_, by omega⟩
      rw [scaleCompact, if_neg h1, if_pos h2]
      simp [natToLEBytes]
    · refine ⟨(n * 4 + 2) % 256,
        [(n * 4 + 2) / 256 % 256, (n * 4 + 2) / 256 / 256 % 256,
          (n * 4 + 2) / 256 / 256 / 256 % 256], ?_, by omega⟩
      rw [scaleCompact, if_neg h1, if_neg h2, if_pos hn]
      simp [natToLEBytes]

/-- A SCALE-encoded key of realistic length can never collide with the
reserved `staggered` key, whose first byte `115` is 3 modulo 4. -/
theorem scaleEncodeBytes_ne_staggered (d : Bytes) (hd : d.length < 2 ^ 30) :
    scaleEncodeBytes d ≠ KEY_STAGGERED := by
  obtain ⟨b, l, he, hb⟩ := scaleCompact_head d.length hd
  rw [scaleEncodeBytes, he]
  intro hcontra
  rw [KEY_STAGGERED] at hcontra
  have hhead : b = 115 := by
    have h2 := congrArg List.head? hcontra
    simpa using h2
  omega

/-- C3 (amended): any identity present in both the stored index and the new
set keeps its record byte-for-byte, *provided* it is not one of the reserved
`tests`/`metadata` keys and is not the SCALE-encoded image of a removed
(deprecated) identity — the removal slip exhibited by the counterexample
forces that last proviso. -/
theorem db_update_preserves_shared_record (tree : Store)
    (tests_new : List (Bytes × Bytes)) (metadata : Bytes)
    (oldKeys : List Bytes) (k : Bytes)
    (hstore : storeGet tree KEY_TESTS = some (scaleEncodeVecBytes oldKeys))
    (hlen : oldKeys.length < 2 ^ 30)
    (hkl : ∀ s ∈ oldKeys, s.length < 2 ^ 30)
    (hold : k ∈ oldKeys)
    (hnew : k ∈ tests_new.map Prod.fst)
    (hkt : k ≠ KEY_TESTS) (hkm : k ≠ KEY_METADATA)
    (hcoll : ∀ d ∈ oldKeys, d ∉ tests_new.map Prod.fst →
      scaleEncodeBytes d ≠ k) :
    ∃ tree', db_update tree tests_new metadata = some tree' ∧
      storeGet tree' k = storeGet tree k := by
  refine ⟨_, db_update_eq_of_stored tree tests_new metadata oldKeys hstore
    hlen hkl, ?_⟩
  rw [storeGet_insert_ne _ _ _ _ hkt]
  rw [foldl_insert_lookup_frame _ _ _ _ ?hunk]
  rw [foldl_remove_frame _ _ _ _ ?hdep]
  rw [storeGet_insert_ne _ _ _ _ hkm]
  case hunk =>
    intro x hx
    rw [List.mem_filter] at hx
    obtain ⟨-, hx2⟩ := hx
    rw [decide_eq_true_eq, mem_dedupFirst] at hx2
    intro hxk
    exact hx2 (hxk ▸ hold)
  case hdep =>
    intro x hx
    rw [List.mem_filter] at hx
    obtain ⟨hx1, hx2⟩ := hx
    rw [mem_dedupFirst] at hx1
    rw [decide_eq_true_eq, mem_dedupFirst] at hx2
    exact hcoll x hx1 hx2

/-- Witness for `db_update_preserves_shared_record` at a concrete store:
identity `[97]` is in both the old index and the new set and its record
survives reconciliation unchanged. -/
theorem db_update_preserves_shared_record_witness :
    ∃ tree', db_update
        (storeInsert (storeInsert storeEmpty [97] [7]) KEY_TESTS
          (scaleEncodeVecBytes [[97]]))
        [([97], [7])] [0] = some tree' ∧
      storeGet tree' [97] =
        storeGet (storeInsert (storeInsert storeEmpty [97] [7]) KEY_TESTS
          (scaleEncodeVecBytes [[97]])) [97] :=
  db_update_preserves_shared_record _ _ _ [[97]] [97]
    (by decide) (by decide) (by decide) (by decide) (by decide) (by decide)
    (by decide) (by decide)

/-- C3 counterexample: the claim as stated is false.  Identity `[4, 97]` is
present in both the old index and the new set, its stored record is
`[11]`, yet after `db_update` it is gone: the deprecated identity `[97]` is
removed under its SCALE encoding `[4, 97]`, which clobbers the surviving
record. -/
theorem db_update_shared_record_clobbered :
    ((db_update
        (storeInsert (storeInsert (storeInsert storeEmpty [97] [10])
          [4, 97] [11]) KEY_TESTS (scaleEncodeVecBytes [[97], [4, 97]]))
        [([4, 97], [11])] [0]).map (fun t => storeGet t [4, 97]) =
      some none) ∧
    storeGet (storeInsert (storeInsert (storeInsert storeEmpty [97] [10])
        [4, 97] [11]) KEY_TESTS (scaleEncodeVecBytes [[97], [4, 97]]))
      [4, 97] = some [11] := by
  constructor
  · decide
  · decide

/-- C4 (code bug): after reconciliation over a store whose index is `[[97]]`
with record `[10]` and whose new test set is `{[98] ↦ [20]}`, the identity
`[97]` — absent from the new set — is *still readable*: the removal targets
the SCALE-encoded key `[4, 97]`, not the raw key `[97]` the record was
stored under.  The new index itself is correctly rewritten to `[[98]]`. -/
theorem db_update_stale_record_survives :
    ((db_update
        (storeInsert (storeInsert storeEmpty [97] [10]) KEY_TESTS
          (scaleEncodeVecBytes [[97]]))
        [([98], [20])] [0]).map (fun t => storeGet t [97]) =
      some (some [10])) ∧
    ((db_update
        (storeInsert (storeInsert storeEmpty [97] [10]) KEY_TESTS
          (scaleEncodeVecBytes [[97]]))
        [([98], [20])] [0]).map (fun t => storeGet t KEY_TESTS) =
      some (some (scaleEncodeVecBytes [[98]]))) := by
  constructor
  · decide
  · decide

/-- C5 (amended): `db_update` — the operation that runs when the course
definition changes — never touches the `staggered` resume cursor at all
(rather than resetting it to 1); the cursor is only *defaulted* to 1 by
`Monitor::into_runner_staggered` when no cursor is stored.  Hypotheses: no
test identity is literally the reserved `staggered` key, and the stored
index (if any) decodes to `oldKeys` of realistic lengths. -/
theorem db_update_staggered_unchanged (tree : Store)
    (tests_new : List (Bytes × Bytes)) (metadata : Bytes)
    (oldKeys : List Bytes)
    (hstore : storeGet tree KEY_TESTS = none ∨
      storeGet tree KEY_TESTS = some (scaleEncodeVecBytes oldKeys))
    (hlen : oldKeys.length < 2 ^ 30)
    (hkl : ∀ s ∈ oldKeys, s.length < 2 ^ 30)
    (hnews : KEY_STAGGERED ∉ tests_new.map Prod.fst) :
    ∃ tree', db_update tree tests_new metadata = some tree' ∧
      storeGet tree' KEY_STAGGERED = storeGet tree KEY_STAGGERED := by
  cases hstore with
  | inl hnone =>
      refine ⟨_, db_update_eq_of_empty tree tests_new metadata hnone, ?_⟩
      rw [storeGet_insert_ne _ _ _ _ (by decide)]
      rw [foldl_insert_pairs_frame _ _ _ ?hins]
      rw [storeGet_insert_ne _ _ _ _ (by decide)]
      case hins =>
        intro kv hkv hcontra
        exact hnews (hcontra ▸ List.mem_map_of_mem Prod.fst hkv)
  | inr hsome =>
      refine ⟨_, db_update_eq_of_stored tree tests_new metadata oldKeys hsome
        hlen hkl, ?_⟩
      rw [storeGet_insert_ne _ _ _ _ (by decide)]
      rw [foldl_insert_lookup_frame _ _ _ _ ?hunk]
      rw [foldl_remove_frame _ _ _ _ ?hdep]
      rw [storeGet_insert_ne _ _ _ _ (by decide)]
      case hunk =>
        intro x hx hcontra
        rw [List.mem_filter] at hx
        obtain ⟨hx1, -⟩ := hx
        rw [mem_dedupFirst] at hx1
        exact hnews (hcontra ▸ hx1)
      case hdep =>
        intro x hx
        rw [List.mem_filter] at hx
        obtain ⟨hx1, -⟩ := hx
        rw [mem_dedupFirst] at hx1
        exact scaleEncodeBytes_ne_staggered x (hkl x hx1)

/-- Witness for `db_update_staggered_unchanged`: a stored cursor of 5
survives a reconciliation that swaps test `[97]` for test `[98]`. -/
theorem db_update_staggered_unchanged_witness :
    ∃ tree', db_update
        (storeInsert (storeInsert (storeInsert storeEmpty KEY_STAGGERED
          (scaleEncodeU32 5)) [97] [10]) KEY_TESTS
          (scaleEncodeVecBytes [[97]]))
        [([98], [20])] [0] = some tree' ∧
      storeGet tree' KEY_STAGGERED =
        storeGet (storeInsert (storeInsert (storeInsert storeEmpty
          KEY_STAGGERED (scaleEncodeU32 5)) [97] [10]) KEY_TESTS
          (scaleEncodeVecBytes [[97]])) KEY_STAGGERED :=
  db_update_staggered_unchanged _ _ _ [[97]]
    (Or.inr (by decide)) (by decide) (by decide) (by decide)

/-- C5 counterexample: the claim as stated is false.  With a stored cursor
of 5, reconciliation fires on a changed course (test `[97]` replaced by
`[98]`) and the cursor afterwards is still the encoding of 5, not of 1. -/
theorem db_update_staggered_not_reset :
    ((db_update
        (storeInsert (storeInsert (storeInsert storeEmpty KEY_STAGGERED
          (scaleEncodeU32 5)) [97] [10]) KEY_TESTS
          (scaleEncodeVecBytes [[97]]))
        [([98], [20])] [0]).map (fun t => storeGet t KEY_STAGGERED) =
      some (some (scaleEncodeU32 5))) ∧
    scaleEncodeU32 5 ≠ scaleEncodeU32 1 := by
  constructor
  · decide
  · decide

theorem scaleEncodeI64_inj (a b : Int) (ha1 : -(2 ^ 63) ≤ a) (ha2 : a < 2 ^ 63)
    (hb1 : -(2 ^ 63) ≤ b) (hb2 : b < 2 ^ 63)
    (h : scaleEncodeI64 a = scaleEncodeI64 b) : a = b := by
  have hda := scaleDecodeI64_encode a ha1 ha2
  have hdb := scaleDecodeI64_encode b hb1 hb2
  rw [h, hdb] at hda
  exact (Option.some.injEq b a ▸ hda).symm

/-- C7: `db_should_update` fails with the stat error iff the stat call on
the course file fails; when the stat succeeds it always overwrites the
watermark with the file mtime (also when returning false), touches no
other key, and returns true iff no watermark was stored or the file mtime
is strictly newer.  The well-formedness hypothesis says the stored
watermark, if any, is a valid `i64` encoding — otherwise the source
panics on `unwrap`. -/
theorem db_should_update_spec (tree : Store) (t : Int)
    (hwf : storeGet tree KEY_TIME = none ∨
      ∃ t0 : Int, -(2 ^ 63) ≤ t0 ∧ t0 < 2 ^ 63 ∧
        storeGet tree KEY_TIME = some (scaleEncodeI64 t0)) :
    db_should_update tree none = some .ioErr ∧
    ∃ b : Bool, db_should_update tree (some t) =
        some (.ok (storeInsert tree KEY_TIME (scaleEncodeI64 t)) b) ∧
      (b = true ↔ (storeGet tree KEY_TIME = none ∨
        ∃ t0 : Int, -(2 ^ 63) ≤ t0 ∧ t0 < 2 ^ 63 ∧
          storeGet tree KEY_TIME = some (scaleEncodeI64 t0) ∧ t0 < t)) ∧
      (∀ q, q ≠ KEY_TIME →
        storeGet (storeInsert tree KEY_TIME (scaleEncodeI64 t)) q =
          storeGet tree q) := by
  refine ⟨rfl, ?_⟩
  cases hwf with
  | inl hnone =>
      refine ⟨true, ?_, ?_, ?_⟩
      · rw [db_should_update, hnone]
      · simp [hnone]
      · intro q hq
        exact storeGet_insert_ne _ _ _ _ hq
  | inr hsome =>
      obtain ⟨t0, h1, h2, hst⟩ := hsome
      refine ⟨decide (t0 < t), ?_, ?_, ?_⟩
      · simp only [db_should_update, hst, scaleDecodeI64_encode t0 h1 h2]
      · constructor
        · intro hb
          refine Or.inr ⟨t0, h1, h2, hst, ?_⟩
          exact of_decide_eq_true hb
        · intro hr
          cases hr with
          | inl hn => rw [hst] at hn; exact absurd hn (by simp)
          | inr he =>
              obtain ⟨t0', h1', h2', hst', hlt⟩ := he
              rw [hst] at hst'
              have heq : t0 = t0' := by
                apply scaleEncodeI64_inj t0 t0' h1 h2 h1' h2'
                exact Option.some.inj hst'
              rw [decide_eq_true_eq, heq]
              exact hlt
      · intro q hq
        exact storeGet_insert_ne _ _ _ _ hq

/-- Witness for `db_should_update_spec`: with a stored watermark of 5 and a
file mtime of 7, the call returns true and overwrites the watermark. -/
theorem db_should_update_spec_witness :
    ∃ b : Bool, db_should_update
        (storeInsert storeEmpty KEY_TIME (scaleEncodeI64 5)) (some 7) =
        some (.ok (storeInsert (storeInsert storeEmpty KEY_TIME
          (scaleEncodeI64 5)) KEY_TIME (scaleEncodeI64 7)) b) ∧
      (b = true ↔ (storeGet (storeInsert storeEmpty KEY_TIME
          (scaleEncodeI64 5)) KEY_TIME = none ∨
        ∃ t0 : Int, -(2 ^ 63) ≤ t0 ∧ t0 < 2 ^ 63 ∧
          storeGet (storeInsert storeEmpty KEY_TIME (scaleEncodeI64 5))
            KEY_TIME = some (scaleEncodeI64 t0) ∧ t0 < 7)) ∧
      (∀ q, q ≠ KEY_TIME →
        storeGet (storeInsert (storeInsert storeEmpty KEY_TIME
          (scaleEncodeI64 5)) KEY_TIME (scaleEncodeI64 7)) q =
          storeGet (storeInsert storeEmpty KEY_TIME (scaleEncodeI64 5)) q) :=
  (db_should_update_spec (storeInsert storeEmpty KEY_TIME (scaleEncodeI64 5))
    7 (Or.inr ⟨5, by norm_num, by norm_num, rfl⟩)).2

theorem runnerStepN_succ_back (env : RunnerEnv) (n : Nat) (r : RunnerV1) :
    runnerStepN env (n + 1) r = runnerStep env (runnerStepN env n r) := by
  induction n generalizing r with
  | zero => rfl
  | succ n ih => rw [runnerStepN, ih, runnerStepN]

theorem runnerStep_tests (env : RunnerEnv) (r : RunnerV1) :
    (runnerStep env r).tests = r.tests := by
  rcases r with ⟨ts, sc, st⟩
  cases st with
  | Loaded =>
      simp only [runnerStep]
      split_ifs <;> rfl
  | NewTest i =>
      cases hg : ts[i]? with
      | none => simp only [runnerStep, hg]
      | some t =>
          simp only [runnerStep, hg]
          split_ifs <;> rfl
  | Fail i e => rfl
  | Pass => rfl
  | Finish => rfl

theorem countExec_succ (env : RunnerEnv) (i : Nat) :
    countExec env (i + 1) =
      countExec env i + (if env.exec i then 1 else 0) := by
  rw [countExec, countExec, List.range_succ, List.countP_append]
  simp [List.countP_cons]

theorem runnerStepN_tests (env : RunnerEnv) (n : Nat) (r : RunnerV1) :
    (runnerStepN env n r).tests = r.tests := by
  induction n generalizing r with
  | zero => rfl
  | succ n ih => rw [runnerStepN, ih, runnerStep_tests]

theorem runnerStepN_add (env : RunnerEnv) (a b : Nat) (r : RunnerV1) :
    runnerStepN env (a + b) r = runnerStepN env b (runnerStepN env a r) := by
  induction a generalizing r with
  | zero => rw [Nat.zero_add]; rfl
  | succ a ih =>
      rw [Nat.succ_add, runnerStepN, runnerStepN, ih]

theorem runnerStepN_of_finish (env : RunnerEnv) (n : Nat) (r : RunnerV1)
    (h : r.state = .Finish) : runnerStepN env n r = r := by
  induction n with
  | zero => rfl
  | succ n ih =>
      rw [runnerStepN_succ_back, ih, runnerStep, h]

/-- Trajectory of the driver loop: if every test before position `i`
succeeded or was optional (with working store and transport), the machine is
at `NewTest i` after `i + 1` steps, having counted the passing tests. -/
theorem runner_reaches (env : RunnerEnv) (ts : List RunnerTest) (i : Nat)
    (hi : i < ts.length)
    (hok : ∀ j < i, env.dbOk j = true ∧ env.logOk j = true ∧
      (env.exec j = true ∨ ∃ u, ts[j]? = some u ∧ u.optional = true)) :
    runnerStepN env (i + 1) (runnerInit ts) =
      { tests := ts, success := countExec env i, state := .NewTest i } := by
  induction i with
  | zero =>
      have hne : ts.isEmpty = false := by
        cases ts with
        | nil => simp at hi
        | cons a l => rfl
      show runnerStep env (runnerInit ts) = _
      rw [runnerStep]
      simp [runnerInit, hne, countExec]
  | succ i ih =>
      have hi' : i < ts.length := Nat.lt_of_succ_lt hi
      have hok' : ∀ j < i, env.dbOk j = true ∧ env.logOk j = true ∧
          (env.exec j = true ∨ ∃ u, ts[j]? = some u ∧ u.optional = true) :=
        fun j hj => hok j (Nat.lt_succ_of_lt hj)
      rw [runnerStepN_succ_back, ih hi' hok']
      obtain ⟨hdb, hlog, hrun⟩ := hok i (Nat.lt_succ_self i)
      obtain ⟨t, hget⟩ : ∃ t, ts[i]? = some t :=
        ⟨ts[i], List.getElem?_eq_getElem hi'⟩
      rw [runnerStep]
      simp only [hget]
      cases hexec : env.exec i with
      | true =>
          simp only [hexec, if_true, hdb, hlog]
          rw [if_neg (by simp), if_neg (by simp), if_pos hi,
            countExec_succ, hexec]
          simp
      | false =>
          obtain ⟨u, hgu, hopt⟩ := hrun.resolve_left (by simp [hexec])
          have hut : u = t := by
            rw [hget] at hgu
            exact (Option.some.inj hgu).symm
          simp only [hexec, Bool.false_eq_true, if_false, hdb, hlog]
          rw [if_neg (by simp), if_neg (by simp),
            if_neg (by rw [← hut, hopt]; simp), if_pos hi,
            countExec_succ, hexec]
          simp

/-- Once the machine is in `Fail`, it only ever visits `Finish`: no further
test is executed. -/
theorem runner_no_newtest_from_fail (env : RunnerEnv) (n : Nat)
    (r : RunnerV1) (i : Nat) (e : String) (h : r.state = .Fail i e) :
    ∀ j, (runnerStepN env n r).state ≠ .NewTest j := by
  intro j
  cases n with
  | zero => rw [runnerStepN, h]; intro hc; cases hc
  | succ n =>
      rw [runnerStepN, runnerStepN_of_finish env n _ (by rw [runnerStep, h])]
      rw [runnerStep, h]
      intro hc
      cases hc

theorem runnerStep_fuel (env : RunnerEnv) (r : RunnerV1)
    (h : r.state ≠ .Finish) : runnerFuel (runnerStep env r) < runnerFuel r := by
  rcases r with ⟨ts, sc, st⟩
  cases st with
  | Loaded =>
      simp only [runnerStep]
      split_ifs <;> simp [runnerFuel]
  | NewTest i =>
      cases hg : ts[i]? with
      | none => simp [runnerStep, hg, runnerFuel]
      | some t =>
          have hi : i < ts.length := by
            by_contra hc
            rw [List.getElem?_eq_none (Nat.le_of_not_lt hc)] at hg
            cases hg
          simp only [runnerStep, hg]
          split_ifs <;> simp [runnerFuel] <;> omega
  | Fail i e => simp [runnerStep, runnerFuel]
  | Pass => simp [runnerStep, runnerFuel]
  | Finish => exact absurd rfl h

theorem runnerStepN_finish_of_fuel (env : RunnerEnv) :
    ∀ (n : Nat) (r : RunnerV1), runnerFuel r ≤ n →
      (runnerStepN env n r).state = .Finish := by
  intro n
  induction n with
  | zero =>
      intro r hr
      cases hs : r.state with
      | Finish => exact hs
      | Loaded => simp [runnerFuel, hs] at hr
      | NewTest i => simp [runnerFuel, hs] at hr
      | Fail i e => simp [runnerFuel, hs] at hr
      | Pass => simp [runnerFuel, hs] at hr
  | succ n ih =>
      intro r hr
      by_cases hs : r.state = .Finish
      · rw [runnerStepN_of_finish env _ r hs]
        exact hs
      · rw [runnerStepN]
        exact ih _ (by have := runnerStep_fuel env r hs; omega)

/-- C2: with working store and transport, the first failing non-optional
test halts the run — the machine reaches `Fail` at its index and no later
test position is ever entered — while the failure of an optional test alone
never produces `Fail`: the machine simply advances (or finishes in `Pass`
if the optional test was last). -/
theorem runner_first_mandatory_failure_halts (env : RunnerEnv)
    (ts : List RunnerTest) (i : Nat) (t : RunnerTest)
    (hget : ts[i]? = some t) (hmand : t.optional = false)
    (hfail : env.exec i = false)
    (hdb : ∀ j, env.dbOk j = true) (hlog : ∀ j, env.logOk j = true)
    (hbef : ∀ j < i, env.exec j = true ∨
      ∃ u, ts[j]? = some u ∧ u.optional = true) :
    (runnerStepN env (i + 2) (runnerInit ts)).state =
        .Fail i ("Test " ++ toString i ++ ":" ++ t.name ++ " failed") ∧
      (∀ n j, (runnerStepN env n (runnerInit ts)).state = .NewTest j →
        j ≤ i) ∧
      (∀ (r : RunnerV1) (j : Nat) (u : RunnerTest),
        r.state = .NewTest j → r.tests[j]? = some u → u.optional = true →
        (runnerStep env r).state = .NewTest (j + 1) ∨
          (runnerStep env r).state = .Pass) := by
  have hi : i < ts.length := by
    by_contra hc
    rw [List.getElem?_eq_none (Nat.le_of_not_lt hc)] at hget
    cases hget
  have hreach : runnerStepN env (i + 1) (runnerInit ts) =
      { tests := ts, success := countExec env i, state := .NewTest i } :=
    runner_reaches env ts i hi
      (fun j hj => ⟨hdb j, hlog j, hbef j hj⟩)
  have hfailstate : (runnerStepN env (i + 2) (runnerInit ts)).state =
      .Fail i ("Test " ++ toString i ++ ":" ++ t.name ++ " failed") := by
    rw [show i + 2 = i + 1 + 1 from rfl, runnerStepN_succ_back, hreach,
      runnerStep]
    simp only [hget, hfail]
    rw [if_neg (by simp), if_neg (by simp [hdb]), if_neg (by simp [hlog]),
      if_pos (by rw [hmand])]
  refine ⟨hfailstate, ?_, ?_⟩
  · intro n j hn
    rcases Nat.lt_or_ge n (i + 2) with hlt | hge
    · cases n with
      | zero =>
          rw [runnerStepN, runnerInit] at hn
          cases hn
      | succ m =>
          have hm : m ≤ i := by omega
          rcases Nat.eq_or_lt_of_le hm with heq | hlt'
          · rw [heq] at hn
            rw [hreach] at hn
            cases hn
            omega
          · have := runner_reaches env ts m (by omega)
              (fun j hj => ⟨hdb j, hlog j, hbef j (by omega)⟩)
            rw [this] at hn
            cases hn
            omega
    · obtain ⟨d, hd⟩ := Nat.exists_eq_add_of_le hge
      rw [hd, runnerStepN_add] at hn
      exact absurd hn (runner_no_newtest_from_fail env d _ i _
        hfailstate j)
  · intro r j u hst hgu hopt
    rcases r with ⟨l, sc, st⟩
    cases hst
    rw [runnerStep]
    simp only [hgu]
    cases hexec : env.exec j with
    | true =>
        rw [if_pos rfl, if_neg (by simp [hdb]), if_neg (by simp [hlog])]
        by_cases hj : j + 1 < l.length
        · left; rw [if_pos hj]
        · right; rw [if_neg hj]
    | false =>
        rw [if_neg (by simp), if_neg (by simp [hdb]),
          if_neg (by simp [hlog]), if_neg (by rw [hopt]; simp)]
        by_cases hj : j + 1 < l.length
        · left; rw [if_pos hj]
        · right; rw [if_neg hj]

/-- Witness for `runner_first_mandatory_failure_halts`: over
`[t1 optional, t2 mandatory, t3 mandatory]` where `t1` and `t2` fail, the
run fails at index 1 and position 2 is never entered. -/
theorem runner_first_mandatory_failure_halts_witness :
    (runnerStepN
        ⟨fun _ => false, fun _ => true, fun _ => true, fun _ => "",
          true, true⟩ 3
        (runnerInit [⟨"t1", true⟩, ⟨"t2", false⟩, ⟨"t3", false⟩])).state =
        .Fail 1 ("Test " ++ toString 1 ++ ":" ++ "t2" ++ " failed") ∧
      (∀ n j, (runnerStepN
        ⟨fun _ => false, fun _ => true, fun _ => true, fun _ => "",
          true, true⟩ n
        (runnerInit [⟨"t1", true⟩, ⟨"t2", false⟩, ⟨"t3", false⟩])).state =
          .NewTest j → j ≤ 1) ∧
      (∀ (r : RunnerV1) (j : Nat) (u : RunnerTest),
        r.state = .NewTest j → r.tests[j]? = some u → u.optional = true →
        (runnerStep ⟨fun _ => false, fun _ => true, fun _ => true,
          fun _ => "", true, true⟩ r).state = .NewTest (j + 1) ∨
          (runnerStep ⟨fun _ => false, fun _ => true, fun _ => true,
            fun _ => "", true, true⟩ r).state = .Pass) :=
  runner_first_mandatory_failure_halts _ _ 1 ⟨"t2", false⟩ rfl rfl rfl
    (fun _ => rfl) (fun _ => rfl)
    (fun j hj => Or.inr ⟨⟨"t1", true⟩, by interval_cases j <;> exact ⟨rfl, rfl⟩⟩)

/-- C9: when every test passes or is optional (store and transport
working), the run reaches `Pass` after `length + 1` steps, the success
counter equals the number of passing tests (optional failures counted in
the denominator but not the numerator), and the score is
`success / total * 100`. -/
theorem runner_pass_score (env : RunnerEnv) (ts : List RunnerTest)
    (hne : ts ≠ [])
    (hdb : ∀ j, env.dbOk j = true) (hlog : ∀ j, env.logOk j = true)
    (hok : ∀ j < ts.length, env.exec j = true ∨
      ∃ u, ts[j]? = some u ∧ u.optional = true) :
    (runnerStepN env (ts.length + 1) (runnerInit ts)).state = .Pass ∧
    (runnerStepN env (ts.length + 1) (runnerInit ts)).success =
      countExec env ts.length ∧
    runnerScore (runnerStepN env (ts.length + 1) (runnerInit ts)) =
      (countExec env ts.length : ℚ) / (ts.length : ℚ) * 100 := by
  have hlen : 0 < ts.length := List.length_pos.mpr hne
  obtain ⟨L, hL⟩ : ∃ L, ts.length = L + 1 := ⟨ts.length - 1, by omega⟩
  have hreach : runnerStepN env (L + 1) (runnerInit ts) =
      { tests := ts, success := countExec env L, state := .NewTest L } :=
    runner_reaches env ts L (by omega)
      (fun j hj => ⟨hdb j, hlog j, hok j (by omega)⟩)
  obtain ⟨t, hget⟩ : ∃ t, ts[L]? = some t :=
    ⟨ts.get ⟨L, by omega⟩, List.getElem?_eq_getElem (by omega)⟩
  have hlast : ¬ L + 1 < ts.length := by omega
  have hstep : runnerStepN env (ts.length + 1) (runnerInit ts) =
      { tests := ts, success := countExec env ts.length, state := .Pass } := by
    rw [hL, show L + 1 + 1 = L + 1 + 1 from rfl, runnerStepN_succ_back,
      hreach, runnerStep]
    simp only [hget]
    cases hexec : env.exec L with
    | true =>
        rw [if_pos rfl, if_neg (by simp [hdb]), if_neg (by simp [hlog]),
          if_neg hlast]
        rw [countExec_succ, hexec]
        simp
    | false =>
        obtain ⟨u, hgu, hopt⟩ :=
          (hok L (by omega)).resolve_left (by simp [hexec])
        have hut : u = t := by
          rw [hget] at hgu
          exact (Option.some.inj hgu).symm
        rw [if_neg (by simp), if_neg (by simp [hdb]),
          if_neg (by simp [hlog]), if_neg (by rw [← hut, hopt]; simp),
          if_neg hlast]
        rw [countExec_succ, hexec]
        simp
  rw [hstep]
  exact ⟨rfl, rfl, rfl⟩

/-- Witness for `runner_pass_score`: five tests of which the optional third
fails and the rest pass; the run reaches `Pass` with a score of exactly
80%. -/
theorem runner_pass_score_witness :
    (runnerStepN scoreEnv (scoreTests.length + 1)
      (runnerInit scoreTests)).state = .Pass ∧
    runnerScore (runnerStepN scoreEnv (scoreTests.length + 1)
      (runnerInit scoreTests)) = 80 := by
  have h := runner_pass_score scoreEnv scoreTests
    (by decide) (fun _ => rfl) (fun _ => rfl)
    (by
      intro j hj
      have hj5 : j < 5 := by simpa [scoreTests] using hj
      interval_cases j
      · exact Or.inl rfl
      · exact Or.inl rfl
      · exact Or.inr ⟨⟨"t3", true⟩, rfl, rfl⟩
      · exact Or.inl rfl
      · exact Or.inl rfl)
  refine ⟨h.1, ?_⟩
  rw [h.2.2]
  rw [show countExec scoreEnv scoreTests.length = 4 from rfl]
  rw [show ((scoreTests.length : ℚ) = 5) from by norm_num [scoreTests]]
  norm_num

/-- C10: from `Loaded`, the driver loop always reaches `Finish` within
`length + 3` steps, and `Finish` is absorbing — so the
`while !runner.is_finished()` driver loop of `main.rs` terminates. -/
theorem runner_terminates (env : RunnerEnv) (ts : List RunnerTest) :
    (runnerStepN env (ts.length + 3) (runnerInit ts)).state = .Finish ∧
    ∀ (l : List RunnerTest) (s : Nat),
      runnerStep env { tests := l, success := s, state := .Finish } =
        { tests := l, success := s, state := .Finish } := by
  constructor
  · apply runnerStepN_finish_of_fuel
    simp [runnerFuel, runnerInit]
  · intro l s
    rfl

/-- C1 (amended): a transport failure while sending a per-test `log` frame
*aborts* the run — the machine moves to `Fail` at the index of that test with
the transport error as the reason, for passing and failing tests alike —
whereas failures of the final `status`/`disconnect` frames are only warned
about: the `Pass` and `Fail` states step to `Finish` whatever the
environment `statusOk`/`closeOk` fields say. -/
theorem runner_log_transport_failure_aborts (env : RunnerEnv) :
    (∀ (r : RunnerV1) (i : Nat) (t : RunnerTest),
      r.state = .NewTest i → r.tests[i]? = some t →
      env.dbOk i = true → env.logOk i = false →
      (runnerStep env r).state = .Fail i (env.logErr i)) ∧
    (∀ (l : List RunnerTest) (s : Nat),
      (runnerStep env { tests := l, success := s, state := .Pass }).state =
        .Finish ∧
      ∀ (i : Nat) (e : String),
        (runnerStep env
          { tests := l, success := s, state := .Fail i e }).state =
          .Finish) := by
  constructor
  · intro r i t hst hget hdb hlog
    rcases r with ⟨l, sc, st⟩
    cases hst
    rw [runnerStep]
    simp only [hget]
    cases hexec : env.exec i with
    | true => rw [if_pos rfl, if_neg (by simp [hdb]), if_pos (by simp [hlog])]
    | false =>
        rw [if_neg (by simp), if_neg (by simp [hdb]),
          if_pos (by simp [hlog])]
  · intro l s
    exact ⟨rfl, fun i e => rfl⟩

/-- Witness for `runner_log_transport_failure_aborts`: a passing test whose
`log` frame fails to send drives the machine into
`Fail 0 "send failed"`. -/
theorem runner_log_transport_failure_aborts_witness :
    (runnerStep
        ⟨fun _ => true, fun _ => true, fun _ => false, fun _ => "send failed",
          true, true⟩
        { tests := [⟨"t1", false⟩], success := 0,
          state := .NewTest 0 }).state = .Fail 0 "send failed" :=
  (runner_log_transport_failure_aborts
    ⟨fun _ => true, fun _ => true, fun _ => false, fun _ => "send failed",
      true, true⟩).1
    { tests := [⟨"t1", false⟩], success := 0, state := .NewTest 0 }
    0 ⟨"t1", false⟩ rfl rfl rfl rfl

/-- C1 counterexample: the claim as stated is false.  Over the same
single-test list whose test passes, the run with a failing `log` transport
ends in `Fail` while the run with a working transport ends in `Pass`: the
transport failure changed the final state of the Runner. -/
theorem runner_log_transport_failure_changes_outcome :
    (runnerStepN
        ⟨fun _ => true, fun _ => true, fun _ => false, fun _ => "send failed",
          true, true⟩ 2
        (runnerInit [⟨"t1", false⟩])).state = .Fail 0 "send failed" ∧
    (runnerStepN
        ⟨fun _ => true, fun _ => true, fun _ => true, fun _ => "send failed",
          true, true⟩ 2
        (runnerInit [⟨"t1", false⟩])).state = .Pass := by
  constructor
  · rfl
  · rfl

/-! ## The Structural Validators (`validator/v1.rs` and
`cli/src/validator/v2.rs`)

Both machines walk the course tree and compare the declared slug of each node
against `format!("0x{}", hash(&[...names...]))`, where `hash` is a
2-byte-output Blake2b digest.  The digest is modelled as an arbitrary
function `hf : List String → String` over the ordered name-path — every
theorem below holds for each choice of `hf`, so nothing about the actual
Blake2b internals is assumed.  Progress-bar output is dropped.  The
out-of-range index panics of the Rust indexing are modelled by `Finish`
transitions; they are unreachable for well-formed courses and in any case
never produce `Pass`. -/

theorem drop_of_getElem? {α : Type} (l : List α) (i : Nat) (x : α)
    (h : l[i]? = some x) : l.drop i = x :: l.drop (i + 1) := by
  have hi : i < l.length := by
    by_contra hc
    rw [List.getElem?_eq_none (Nat.le_of_not_lt hc)] at h
    cases h
  have hx : l[i] = x := by
    have h2 := List.getElem?_eq_getElem hi
    rw [h] at h2
    exact (Option.some.inj h2).symm
  rw [List.drop_eq_getElem_cons hi, hx]

theorem validatorStepNV2_finish (hf : List String → String)
    (c : JsonCourseV2) (n : Nat) :
    validatorStepNV2 hf c n .Finish = .Finish := by
  induction n with
  | zero => rfl
  | succ n ih => exact ih

theorem validatorStepNV2_fail_ne_pass (hf : List String → String)
    (c : JsonCourseV2) (n : Nat) (e : String) :
    validatorStepNV2 hf c n (.Fail e) ≠ .Pass := by
  cases n with
  | zero => intro hc; cases hc
  | succ n =>
      rw [validatorStepNV2]
      show validatorStepNV2 hf c n .Finish ≠ .Pass
      rw [validatorStepNV2_finish]
      intro hc
      cases hc

theorem validatorStepNV2_finish_ne_pass (hf : List String → String)
    (c : JsonCourseV2) (n : Nat) :
    validatorStepNV2 hf c n .Finish ≠ .Pass := by
  rw [validatorStepNV2_finish]
  intro hc
  cases hc

/-- Soundness of `ValidatorV2`: if the machine ever reaches `Pass` from a
state `s`, then every node it still had to visit from `s` carries exactly
the recomputed slug. -/
theorem validatorV2_pass_sound (hf : List String → String)
    (c : JsonCourseV2) :
    ∀ (n : Nat) (s : ValidatorStateV2),
      validatorStepNV2 hf c n s = .Pass →
      ∀ nd ∈ remNodes c s, nd.2 = expectedSlug hf nd.1 := by
  intro n
  induction n with
  | zero =>
      intro s hs
      rw [validatorStepNV2] at hs
      rw [hs]
      intro nd hnd
      simp [remNodes] at hnd
  | succ n ih =>
      intro s hs
      rw [validatorStepNV2] at hs
      cases s with
      | Loaded => exact ih (validatorStepV2 hf c .Loaded) hs
      | Course =>
          rw [validatorStepV2] at hs
          by_cases hslug : c.slug ≠ expectedSlug hf [c.name]
          · rw [if_pos hslug] at hs
            exact absurd hs (validatorStepNV2_fail_ne_pass hf c n _)
          · rw [if_neg hslug] at hs
            have hrem : remNodes c .Course =
                ([c.name], c.slug) :: remNodes c (.Stage 0) := by
              simp [remNodes, courseNodes]
            intro nd hnd
            rw [hrem] at hnd
            rcases List.mem_cons.mp hnd with hh | ht
            · rw [hh]
              exact not_ne_iff.mp hslug
            · exact ih _ hs nd ht
      | Stage i =>
          rw [validatorStepV2] at hs
          cases hgi : c.stages[i]? with
          | none =>
              simp only [hgi] at hs
              exact absurd hs (validatorStepNV2_finish_ne_pass hf c n)
          | some st =>
              simp only [hgi] at hs
              by_cases hslug : st.slug ≠ expectedSlug hf [c.name, st.name]
              · rw [if_pos hslug] at hs
                exact absurd hs (validatorStepNV2_fail_ne_pass hf c n _)
              · rw [if_neg hslug] at hs
                have hrem : remNodes c (.Stage i) =
                    ([c.name, st.name], st.slug) ::
                      remNodes c (.Lesson i 0) := by
                  simp [remNodes, drop_of_getElem? _ _ _ hgi, hgi, stageNodes]
                intro nd hnd
                rw [hrem] at hnd
                rcases List.mem_cons.mp hnd with hh | ht
                · rw [hh]
                  exact not_ne_iff.mp hslug
                · exact ih _ hs nd ht
      | Lesson i j =>
          rw [validatorStepV2] at hs
          cases hgi : c.stages[i]? with
          | none =>
              simp only [hgi] at hs
              exact absurd hs (validatorStepNV2_finish_ne_pass hf c n)
          | some st =>
              simp only [hgi] at hs
              cases hgj : st.lessons[j]? with
              | none =>
                  simp only [hgj] at hs
                  exact absurd hs (validatorStepNV2_finish_ne_pass hf c n)
              | some les =>
                  simp only [hgj] at hs
                  by_cases hslug : les.slug ≠
                      expectedSlug hf [c.name, st.name, les.name]
                  · rw [if_pos hslug] at hs
                    exact absurd hs (validatorStepNV2_fail_ne_pass hf c n _)
                  · rw [if_neg hslug] at hs
                    cases hsui : les.suites with
                    | some suites =>
                        simp only [hsui] at hs
                        have hrem : remNodes c (.Lesson i j) =
                            ([c.name, st.name, les.name], les.slug) ::
                              remNodes c (.Suite i j 0) := by
                          simp [remNodes, hgi, hgj,
                            drop_of_getElem? _ _ _ hgj, lessonNodes]
                        intro nd hnd
                        rw [hrem] at hnd
                        rcases List.mem_cons.mp hnd with hh | ht
                        · rw [hh]
                          exact not_ne_iff.mp hslug
                        · exact ih _ hs nd ht
                    | none =>
                        simp only [hsui] at hs
                        have hsuof : suitesOf les = [] := by
                          rw [suitesOf, hsui]
                          rfl
                        by_cases hj1 : j + 1 < st.lessons.length
                        · rw [if_pos hj1] at hs
                          have hrem : remNodes c (.Lesson i j) =
                              ([c.name, st.name, les.name], les.slug) ::
                                remNodes c (.Lesson i (j + 1)) := by
                            simp [remNodes, hgi, drop_of_getElem? _ _ _ hgj,
                              lessonNodes, hsuof]
                          intro nd hnd
                          rw [hrem] at hnd
                          rcases List.mem_cons.mp hnd with hh | ht
                          · rw [hh]
                            exact not_ne_iff.mp hslug
                          · exact ih _ hs nd ht
                        · rw [if_neg hj1] at hs
                          have hdropj : st.lessons.drop (j + 1) = [] :=
                            List.drop_eq_nil_of_le (by omega)
                          by_cases hi1 : i + 1 < c.stages.length
                          · rw [if_pos hi1] at hs
                            have hrem : remNodes c (.Lesson i j) =
                                ([c.name, st.name, les.name], les.slug) ::
                                  remNodes c (.Stage (i + 1)) := by
                              simp [remNodes, hgi,
                                drop_of_getElem? _ _ _ hgj, lessonNodes,
                                hsuof, hdropj]
                            intro nd hnd
                            rw [hrem] at hnd
                            rcases List.mem_cons.mp hnd with hh | ht
                            · rw [hh]
                              exact not_ne_iff.mp hslug
                            · exact ih _ hs nd ht
                          · rw [if_neg hi1] at hs
                            have hdropi : c.stages.drop (i + 1) = [] :=
                              List.drop_eq_nil_of_le (by omega)
                            have hrem : remNodes c (.Lesson i j) =
                                [([c.name, st.name, les.name], les.slug)] := by
                              simp [remNodes, hgi,
                                drop_of_getElem? _ _ _ hgj, lessonNodes,
                                hsuof, hdropj, hdropi]
                            intro nd hnd
                            rw [hrem] at hnd
                            rcases List.mem_cons.mp hnd with hh | ht
                            · rw [hh]
                              exact not_ne_iff.mp hslug
                            · simp at ht
      | Suite i j k =>
          rw [validatorStepV2] at hs
          cases hgi : c.stages[i]? with
          | none =>
              simp only [hgi] at hs
              exact absurd hs (validatorStepNV2_finish_ne_pass hf c n)
          | some st =>
              simp only [hgi] at hs
              cases hgj : st.lessons[j]? with
              | none =>
                  simp only [hgj] at hs
                  exact absurd hs (validatorStepNV2_finish_ne_pass hf c n)
              | some les =>
                  simp only [hgj] at hs
                  cases hsui : les.suites with
                  | none =>
                      simp only [hsui] at hs
                      exact absurd hs (validatorStepNV2_finish_ne_pass hf c n)
                  | some suites =>
                      simp only [hsui] at hs
                      cases hgk : suites[k]? with
                      | none =>
                          simp only [hgk] at hs
                          exact absurd hs
                            (validatorStepNV2_finish_ne_pass hf c n)
                      | some su =>
                          simp only [hgk] at hs
                          by_cases hslug : su.slug ≠ expectedSlug hf
                              [c.name, st.name, les.name, su.name]
                          · rw [if_pos hslug] at hs
                            exact absurd hs
                              (validatorStepNV2_fail_ne_pass hf c n _)
                          · rw [if_neg hslug] at hs
                            have hsuof : suitesOf les = suites := by
                              rw [suitesOf, hsui]
                              rfl
                            have hgk' : (suitesOf les)[k]? = some su := by
                              rw [hsuof]
                              exact hgk
                            have hrem : remNodes c (.Suite i j k) =
                                ([c.name, st.name, les.name, su.name],
                                  su.slug) ::
                                  remNodes c (.Test i j k 0) := by
                              simp [remNodes, hgi, hgj, hgk',
                                drop_of_getElem? _ _ _ hgk', suiteNodes]
                            intro nd hnd
                            rw [hrem] at hnd
                            rcases List.mem_cons.mp hnd with hh | ht
                            · rw [hh]
                              exact not_ne_iff.mp hslug
                            · exact ih _ hs nd ht
      | Test i j k l =>
          rw [validatorStepV2] at hs
          cases hgi : c.stages[i]? with
          | none =>
              simp only [hgi] at hs
              exact absurd hs (validatorStepNV2_finish_ne_pass hf c n)
          | some st =>
              simp only [hgi] at hs
              cases hgj : st.lessons[j]? with
              | none =>
                  simp only [hgj] at hs
                  exact absurd hs (validatorStepNV2_finish_ne_pass hf c n)
              | some les =>
                  simp only [hgj] at hs
                  cases hsui : les.suites with
                  | none =>
                      simp only [hsui] at hs
                      exact absurd hs (validatorStepNV2_finish_ne_pass hf c n)
                  | some suites =>
                      simp only [hsui] at hs
                      cases hgk : suites[k]? with
                      | none =>
                          simp only [hgk] at hs
                          exact absurd hs
                            (validatorStepNV2_finish_ne_pass hf c n)
                      | some su =>
                          simp only [hgk] at hs
                          cases hgl : su.tests[l]? with
                          | none =>
                              simp only [hgl] at hs
                              exact absurd hs
                                (validatorStepNV2_finish_ne_pass hf c n)
                          | some test =>
                              simp only [hgl] at hs
                              by_cases hslug : test.slug ≠ expectedSlug hf
                                  [c.name, st.name, les.name, su.name,
                                    test.name]
                              · rw [if_pos hslug] at hs
                                exact absurd hs
                                  (validatorStepNV2_fail_ne_pass hf c n _)
                              · rw [if_neg hslug] at hs
                                have hsuof : suitesOf les = suites := by
                                  rw [suitesOf, hsui]
                                  rfl
                                have hgk' : (suitesOf les)[k]? = some su := by
                                  rw [hsuof]
                                  exact hgk
                                by_cases hl1 : l + 1 < su.tests.length
                                · rw [if_pos hl1] at hs
                                  have hrem : remNodes c (.Test i j k l) =
                                      ([c.name, st.name, les.name, su.name,
                                        test.name], test.slug) ::
                                        remNodes c (.Test i j k (l + 1)) := by
                                    simp [remNodes, hgi, hgj, hgk',
                                      drop_of_getElem? _ _ _ hgl]
                                  intro nd hnd
                                  rw [hrem] at hnd
                                  rcases List.mem_cons.mp hnd with hh | ht
                                  · rw [hh]
                                    exact not_ne_iff.mp hslug
                                  · exact ih _ hs nd ht
                                · rw [if_neg hl1] at hs
                                  have hdropl : su.tests.drop (l + 1) = [] :=
                                    List.drop_eq_nil_of_le (by omega)
                                  by_cases hk1 : k + 1 < suites.length
                                  · rw [if_pos hk1] at hs
                                    have hrem : remNodes c (.Test i j k l) =
                                        ([c.name, st.name, les.name, su.name,
                                          test.name], test.slug) ::
                                          remNodes c (.Suite i j (k + 1)) := by
                                      simp [remNodes, hgi, hgj, hgk, hgk',
                                        hsuof, drop_of_getElem? _ _ _ hgl,
                                        hdropl, -List.map_drop]
                                    intro nd hnd
                                    rw [hrem] at hnd
                                    rcases List.mem_cons.mp hnd with hh | ht
                                    · rw [hh]
                                      exact not_ne_iff.mp hslug
                                    · exact ih _ hs nd ht
                                  · rw [if_neg hk1] at hs
                                    have hdropk : suites.drop (k + 1) = [] :=
                                      List.drop_eq_nil_of_le (by omega)
                                    by_cases hj1 : j + 1 < st.lessons.length
                                    · rw [if_pos hj1] at hs
                                      have hrem : remNodes c (.Test i j k l) =
                                          ([c.name, st.name, les.name,
                                            su.name, test.name], test.slug) ::
                                            remNodes c (.Lesson i (j + 1)) := by
                                        simp [remNodes, hgi, hgj, hgk, hgk',
                                          hsuof, drop_of_getElem? _ _ _ hgl,
                                          hdropl, hdropk, -List.map_drop]
                                      intro nd hnd
                                      rw [hrem] at hnd
                                      rcases List.mem_cons.mp hnd with hh | ht
                                      · rw [hh]
                                        exact not_ne_iff.mp hslug
                                      · exact ih _ hs nd ht
                                    · rw [if_neg hj1] at hs
                                      have hdropj :
                                          st.lessons.drop (j + 1) = [] :=
                                        List.drop_eq_nil_of_le (by omega)
                                      by_cases hi1 : i + 1 < c.stages.length
                                      · rw [if_pos hi1] at hs
                                        have hrem :
                                            remNodes c (.Test i j k l) =
                                            ([c.name, st.name, les.name,
                                              su.name, test.name],
                                              test.slug) ::
                                              remNodes c (.Stage (i + 1)) := by
                                          simp [remNodes, hgi, hgj, hgk,
                                            hgk', hsuof,
                                            drop_of_getElem? _ _ _ hgl,
                                            hdropl, hdropk, hdropj,
                                            -List.map_drop]
                                        intro nd hnd
                                        rw [hrem] at hnd
                                        rcases List.mem_cons.mp hnd
                                          with hh | ht
                                        · rw [hh]
                                          exact not_ne_iff.mp hslug
                                        · exact ih _ hs nd ht
                                      · rw [if_neg hi1] at hs
                                        have hdropi :
                                            c.stages.drop (i + 1) = [] :=
                                          List.drop_eq_nil_of_le (by omega)
                                        have hrem :
                                            remNodes c (.Test i j k l) =
                                            [([c.name, st.name, les.name,
                                              su.name, test.name],
                                              test.slug)] := by
                                          simp [remNodes, hgi, hgj, hgk,
                                            hgk', hsuof,
                                            drop_of_getElem? _ _ _ hgl,
                                            hdropl, hdropk, hdropj, hdropi,
                                            -List.map_drop]
                                        intro nd hnd
                                        rw [hrem] at hnd
                                        rcases List.mem_cons.mp hnd
                                          with hh | ht
                                        · rw [hh]
                                          exact not_ne_iff.mp hslug
                                        · simp at ht
      | Fail e =>
          intro nd hnd
          simp [remNodes] at hnd
      | Pass =>
          intro nd hnd
          simp [remNodes] at hnd
      | Finish =>
          intro nd hnd
          simp [remNodes] at hnd

theorem validatorStepNV1_finish (hf : List String → String)
    (course : JsonCourseV1) (tester : TesterDefinition) (n : Nat) :
    validatorStepNV1 hf course tester n .Finish = .Finish := by
  induction n with
  | zero => rfl
  | succ n ih => exact ih

theorem validatorStepNV1_fail_ne_pass (hf : List String → String)
    (course : JsonCourseV1) (tester : TesterDefinition) (n : Nat)
    (e : String) :
    validatorStepNV1 hf course tester n (.Fail e) ≠ .Pass := by
  cases n with
  | zero => intro hc; cases hc
  | succ n =>
      rw [validatorStepNV1]
      show validatorStepNV1 hf course tester n .Finish ≠ .Pass
      rw [validatorStepNV1_finish]
      intro hc
      cases hc

theorem validatorStepNV1_finish_ne_pass (hf : List String → String)
    (course : JsonCourseV1) (tester : TesterDefinition) (n : Nat) :
    validatorStepNV1 hf course tester n .Finish ≠ .Pass := by
  rw [validatorStepNV1_finish]
  intro hc
  cases hc

/-- Soundness of `ValidatorV1` over the nodes it actually checks: if the
machine ever reaches `Pass` from a state `s`, every lesson, suite and test
node it still had to visit carries the recomputed slug.  (Course and
section slugs do not appear: V1 never compares them.) -/
theorem validatorV1_pass_sound (hf : List String → String)
    (course : JsonCourseV1) (tester : TesterDefinition) :
    ∀ (n : Nat) (s : ValidatorStateV1),
      validatorStepNV1 hf course tester n s = .Pass →
      ∀ nd ∈ remNodesV1 course tester s, nd.2 = expectedSlug hf nd.1 := by
  intro n
  induction n with
  | zero =>
      intro s hs
      rw [validatorStepNV1] at hs
      rw [hs]
      intro nd hnd
      simp [remNodesV1] at hnd
  | succ n ih =>
      intro s hs
      rw [validatorStepNV1] at hs
      cases s with
      | Loaded => exact ih (validatorStepV1 hf course tester .Loaded) hs
      | Course => exact ih (validatorStepV1 hf course tester .Course) hs
      | Section i =>
          rw [validatorStepV1] at hs
          cases hgi : tester.sections[i]? with
          | none =>
              simp only [hgi] at hs
              exact absurd hs
                (validatorStepNV1_finish_ne_pass hf course tester n)
          | some sec =>
              simp only [hgi] at hs
              have hrem : remNodesV1 course tester (.Section i) =
                  remNodesV1 course tester (.Lesson i 0) := by
                simp [remNodesV1, hgi, drop_of_getElem? _ _ _ hgi,
                  sectionNodesV1]
              intro nd hnd
              rw [hrem] at hnd
              exact ih _ hs nd hnd
      | Lesson i j =>
          rw [validatorStepV1] at hs
          cases hgi : tester.sections[i]? with
          | none =>
              simp only [hgi] at hs
              exact absurd hs
                (validatorStepNV1_finish_ne_pass hf course tester n)
          | some sec =>
              simp only [hgi] at hs
              cases hgj : sec.lessons[j]? with
              | none =>
                  simp only [hgj] at hs
                  exact absurd hs
                    (validatorStepNV1_finish_ne_pass hf course tester n)
              | some les =>
                  simp only [hgj] at hs
                  by_cases hslug : les.slug ≠
                      expectedSlug hf [course.name, sec.name, les.name]
                  · rw [if_pos hslug] at hs
                    exact absurd hs
                      (validatorStepNV1_fail_ne_pass hf course tester n _)
                  · rw [if_neg hslug] at hs
                    cases hsui : les.suites with
                    | some suites =>
                        simp only [hsui] at hs
                        have hrem : remNodesV1 course tester (.Lesson i j) =
                            ([course.name, sec.name, les.name], les.slug) ::
                              remNodesV1 course tester (.Suite i j 0) := by
                          simp [remNodesV1, hgi, hgj,
                            drop_of_getElem? _ _ _ hgj, lessonNodesV1]
                        intro nd hnd
                        rw [hrem] at hnd
                        rcases List.mem_cons.mp hnd with hh | ht
                        · rw [hh]
                          exact not_ne_iff.mp hslug
                        · exact ih _ hs nd ht
                    | none =>
                        simp only [hsui] at hs
                        have hsuof : suitesOfV1 les = [] := by
                          rw [suitesOfV1, hsui]
                          rfl
                        by_cases hj1 : j + 1 < sec.lessons.length
                        · rw [if_pos hj1] at hs
                          have hrem : remNodesV1 course tester (.Lesson i j) =
                              ([course.name, sec.name, les.name], les.slug) ::
                                remNodesV1 course tester (.Lesson i (j + 1)) := by
                            simp [remNodesV1, hgi,
                              drop_of_getElem? _ _ _ hgj, lessonNodesV1,
                              hsuof]
                          intro nd hnd
                          rw [hrem] at hnd
                          rcases List.mem_cons.mp hnd with hh | ht
                          · rw [hh]
                            exact not_ne_iff.mp hslug
                          · exact ih _ hs nd ht
                        · rw [if_neg hj1] at hs
                          have hdropj : sec.lessons.drop (j + 1) = [] :=
                            List.drop_eq_nil_of_le (by omega)
                          by_cases hi1 : i + 1 < tester.sections.length
                          · rw [if_pos hi1] at hs
                            have hrem : remNodesV1 course tester
                                (.Lesson i j) =
                                ([course.name, sec.name, les.name],
                                  les.slug) ::
                                  remNodesV1 course tester
                                    (.Section (i + 1)) := by
                              simp [remNodesV1, hgi,
                                drop_of_getElem? _ _ _ hgj, lessonNodesV1,
                                hsuof, hdropj]
                            intro nd hnd
                            rw [hrem] at hnd
                            rcases List.mem_cons.mp hnd with hh | ht
                            · rw [hh]
                              exact not_ne_iff.mp hslug
                            · exact ih _ hs nd ht
                          · rw [if_neg hi1] at hs
                            have hdropi : tester.sections.drop (i + 1) = [] :=
                              List.drop_eq_nil_of_le (by omega)
                            have hrem : remNodesV1 course tester
                                (.Lesson i j) =
                                [([course.name, sec.name, les.name],
                                  les.slug)] := by
                              simp [remNodesV1, hgi,
                                drop_of_getElem? _ _ _ hgj, lessonNodesV1,
                                hsuof, hdropj, hdropi]
                            intro nd hnd
                            rw [hrem] at hnd
                            rcases List.mem_cons.mp hnd with hh | ht
                            · rw [hh]
                              exact not_ne_iff.mp hslug
                            · simp at ht
      | Suite i j k =>
          rw [validatorStepV1] at hs
          cases hgi : tester.sections[i]? with
          | none =>
              simp only [hgi] at hs
              exact absurd hs
                (validatorStepNV1_finish_ne_pass hf course tester n)
          | some sec =>
              simp only [hgi] at hs
              cases hgj : sec.lessons[j]? with
              | none =>
                  simp only [hgj] at hs
                  exact absurd hs
                    (validatorStepNV1_finish_ne_pass hf course tester n)
              | some les =>
                  simp only [hgj] at hs
                  cases hsui : les.suites with
                  | none =>
                      simp only [hsui] at hs
                      exact absurd hs
                        (validatorStepNV1_finish_ne_pass hf course tester n)
                  | some suites =>
                      simp only [hsui] at hs
                      cases hgk : suites[k]? with
                      | none =>
                          simp only [hgk] at hs
                          exact absurd hs
                            (validatorStepNV1_finish_ne_pass hf course
                              tester n)
                      | some su =>
                          simp only [hgk] at hs
                          by_cases hslug : su.slug ≠ expectedSlug hf
                              [course.name, sec.name, les.name, su.name]
                          · rw [if_pos hslug] at hs
                            exact absurd hs
                              (validatorStepNV1_fail_ne_pass hf course
                                tester n _)
                          · rw [if_neg hslug] at hs
                            have hsuof : suitesOfV1 les = suites := by
                              rw [suitesOfV1, hsui]
                              rfl
                            have hgk' : (suitesOfV1 les)[k]? = some su := by
                              rw [hsuof]
                              exact hgk
                            have hrem : remNodesV1 course tester
                                (.Suite i j k) =
                                ([course.name, sec.name, les.name, su.name],
                                  su.slug) ::
                                  remNodesV1 course tester (.Test i j k 0) := by
                              simp [remNodesV1, hgi, hgj, hgk',
                                drop_of_getElem? _ _ _ hgk', suiteNodesV1]
                            intro nd hnd
                            rw [hrem] at hnd
                            rcases List.mem_cons.mp hnd with hh | ht
                            · rw [hh]
                              exact not_ne_iff.mp hslug
                            · exact ih _ hs nd ht
      | Test i j k l =>
          rw [validatorStepV1] at hs
          cases hgi : tester.sections[i]? with
          | none =>
              simp only [hgi] at hs
              exact absurd hs
                (validatorStepNV1_finish_ne_pass hf course tester n)
          | some sec =>
              simp only [hgi] at hs
              cases hgj : sec.lessons[j]? with
              | none =>
                  simp only [hgj] at hs
                  exact absurd hs
                    (validatorStepNV1_finish_ne_pass hf course tester n)
              | some les =>
                  simp only [hgj] at hs
                  cases hsui : les.suites with
                  | none =>
                      simp only [hsui] at hs
                      exact absurd hs
                        (validatorStepNV1_finish_ne_pass hf course tester n)
                  | some suites =>
                      simp only [hsui] at hs
                      cases hgk : suites[k]? with
                      | none =>
                          simp only [hgk] at hs
                          exact absurd hs
                            (validatorStepNV1_finish_ne_pass hf course
                              tester n)
                      | some su =>
                          simp only [hgk] at hs
                          cases hgl : su.tests[l]? with
                          | none =>
                              simp only [hgl] at hs
                              exact absurd hs
                                (validatorStepNV1_finish_ne_pass hf course
                                  tester n)
                          | some test =>
                              simp only [hgl] at hs
                              by_cases hslug : test.slug ≠ expectedSlug hf
                                  [course.name, sec.name, les.name, su.name,
                                    test.name]
                              · rw [if_pos hslug] at hs
                                exact absurd hs
                                  (validatorStepNV1_fail_ne_pass hf course
                                    tester n _)
                              · rw [if_neg hslug] at hs
                                have hsuof : suitesOfV1 les = suites := by
                                  rw [suitesOfV1, hsui]
                                  rfl
                                have hgk' : (suitesOfV1 les)[k]? = some su := by
                                  rw [hsuof]
                                  exact hgk
                                by_cases hl1 : l + 1 < su.tests.length
                                · rw [if_pos hl1] at hs
                                  have hrem : remNodesV1 course tester
                                      (.Test i j k l) =
                                      ([course.name, sec.name, les.name,
                                        su.name, test.name], test.slug) ::
                                        remNodesV1 course tester
                                          (.Test i j k (l + 1)) := by
                                    simp [remNodesV1, hgi, hgj, hgk',
                                      drop_of_getElem? _ _ _ hgl]
                                  intro nd hnd
                                  rw [hrem] at hnd
                                  rcases List.mem_cons.mp hnd with hh | ht
                                  · rw [hh]
                                    exact not_ne_iff.mp hslug
                                  · exact ih _ hs nd ht
                                · rw [if_neg hl1] at hs
                                  have hdropl : su.tests.drop (l + 1) = [] :=
                                    List.drop_eq_nil_of_le (by omega)
                                  by_cases hk1 : k + 1 < suites.length
                                  · rw [if_pos hk1] at hs
                                    have hrem : remNodesV1 course tester
                                        (.Test i j k l) =
                                        ([course.name, sec.name, les.name,
                                          su.name, test.name], test.slug) ::
                                          remNodesV1 course tester
                                            (.Suite i j (k + 1)) := by
                                      simp [remNodesV1, hgi, hgj, hgk, hgk',
                                        hsuof, drop_of_getElem? _ _ _ hgl,
                                        hdropl, -List.map_drop]
                                    intro nd hnd
                                    rw [hrem] at hnd
                                    rcases List.mem_cons.mp hnd with hh | ht
                                    · rw [hh]
                                      exact not_ne_iff.mp hslug
                                    · exact ih _ hs nd ht
                                  · rw [if_neg hk1] at hs
                                    have hdropk : suites.drop (k + 1) = [] :=
                                      List.drop_eq_nil_of_le (by omega)
                                    by_cases hj1 : j + 1 < sec.lessons.length
                                    · rw [if_pos hj1] at hs
                                      have hrem : remNodesV1 course tester
                                          (.Test i j k l) =
                                          ([course.name, sec.name, les.name,
                                            su.name, test.name],
                                            test.slug) ::
                                            remNodesV1 course tester
                                              (.Lesson i (j + 1)) := by
                                        simp [remNodesV1, hgi, hgj, hgk,
                                          hgk', hsuof,
                                          drop_of_getElem? _ _ _ hgl,
                                          hdropl, hdropk, -List.map_drop]
                                      intro nd hnd
                                      rw [hrem] at hnd
                                      rcases List.mem_cons.mp hnd with hh | ht
                                      · rw [hh]
                                        exact not_ne_iff.mp hslug
                                      · exact ih _ hs nd ht
                                    · rw [if_neg hj1] at hs
                                      have hdropj :
                                          sec.lessons.drop (j + 1) = [] :=
                                        List.drop_eq_nil_of_le (by omega)
                                      by_cases hi1 :
                                          i + 1 < tester.sections.length
                                      · rw [if_pos hi1] at hs
                                        have hrem : remNodesV1 course tester
                                            (.Test i j k l) =
                                            ([course.name, sec.name,
                                              les.name, su.name, test.name],
                                              test.slug) ::
                                              remNodesV1 course tester
                                                (.Section (i + 1)) := by
                                          simp [remNodesV1, hgi, hgj, hgk,
                                            hgk', hsuof,
                                            drop_of_getElem? _ _ _ hgl,
                                            hdropl, hdropk, hdropj,
                                            -List.map_drop]
                                        intro nd hnd
                                        rw [hrem] at hnd
                                        rcases List.mem_cons.mp hnd
                                          with hh | ht
                                        · rw [hh]
                                          exact not_ne_iff.mp hslug
                                        · exact ih _ hs nd ht
                                      · rw [if_neg hi1] at hs
                                        have hdropi :
                                            tester.sections.drop (i + 1) =
                                              [] :=
                                          List.drop_eq_nil_of_le (by omega)
                                        have hrem : remNodesV1 course tester
                                            (.Test i j k l) =
                                            [([course.name, sec.name,
                                              les.name, su.name, test.name],
                                              test.slug)] := by
                                          simp [remNodesV1, hgi, hgj, hgk,
                                            hgk', hsuof,
                                            drop_of_getElem? _ _ _ hgl,
                                            hdropl, hdropk, hdropj, hdropi,
                                            -List.map_drop]
                                        intro nd hnd
                                        rw [hrem] at hnd
                                        rcases List.mem_cons.mp hnd
                                          with hh | ht
                                        · rw [hh]
                                          exact not_ne_iff.mp hslug
                                        · simp at ht
      | Fail e =>
          intro nd hnd
          simp [remNodesV1] at hnd
      | Pass =>
          intro nd hnd
          simp [remNodesV1] at hnd
      | Finish =>
          intro nd hnd
          simp [remNodesV1] at hnd

/-- C6 (amended): `ValidatorV2` recomputes the identity hash over the
ordered name-path at *every* level — course, stage, lesson, suite, test —
halts immediately in `Fail` carrying both the declared and expected slugs
on any mismatch, and reaches `Pass` only after every node at every level
has checked out.  `ValidatorV1`, by contrast, never compares the course or
section slugs — its `Course` and `Section` states advance unconditionally —
and checks (with the same halt-on-mismatch behaviour and `Pass` guarantee)
only the lesson, suite and test levels. -/
theorem validator_slug_checking (hf : List String → String) :
    (∀ (c : JsonCourseV2) (n : Nat),
      validatorStepNV2 hf c n .Loaded = .Pass →
      ∀ nd ∈ courseNodes c, nd.2 = expectedSlug hf nd.1) ∧
    (∀ c : JsonCourseV2, c.slug ≠ expectedSlug hf [c.name] →
      validatorStepV2 hf c .Course =
        .Fail (invalidSlugMsg c.slug (expectedSlug hf [c.name]))) ∧
    (∀ (c : JsonCourseV2) (i : Nat) (st : JsonStageV2),
      c.stages[i]? = some st →
      st.slug ≠ expectedSlug hf [c.name, st.name] →
      validatorStepV2 hf c (.Stage i) =
        .Fail (invalidSlugMsg st.slug (expectedSlug hf [c.name, st.name]))) ∧
    (∀ (course : JsonCourseV1) (tester : TesterDefinition),
      validatorStepV1 hf course tester .Course = .Section 0) ∧
    (∀ (course : JsonCourseV1) (tester : TesterDefinition) (i : Nat)
      (sec : JsonSectionV1), tester.sections[i]? = some sec →
      validatorStepV1 hf course tester (.Section i) = .Lesson i 0) ∧
    (∀ (course : JsonCourseV1) (tester : TesterDefinition) (i j : Nat)
      (sec : JsonSectionV1) (les : JsonLessonV1),
      tester.sections[i]? = some sec → sec.lessons[j]? = some les →
      les.slug ≠ expectedSlug hf [course.name, sec.name, les.name] →
      validatorStepV1 hf course tester (.Lesson i j) =
        .Fail (invalidSlugMsg les.slug
          (expectedSlug hf [course.name, sec.name, les.name]))) ∧
    (∀ (course : JsonCourseV1) (tester : TesterDefinition) (n : Nat),
      validatorStepNV1 hf course tester n .Loaded = .Pass →
      ∀ nd ∈ courseNodesV1 course tester, nd.2 = expectedSlug hf nd.1) := by
  refine ⟨?_, ?_, ?_, ?_, ?_, ?_, ?_⟩
  · intro c n hn
    exact validatorV2_pass_sound hf c n .Loaded hn
  · intro c hne
    rw [validatorStepV2, if_pos hne]
  · intro c i st hgi hne
    rw [validatorStepV2]
    simp only [hgi]
    rw [if_pos hne]
  · intro course tester
    rfl
  · intro course tester i sec hgi
    rw [validatorStepV1]
    simp only [hgi]
  · intro course tester i j sec les hgi hgj hne
    rw [validatorStepV1]
    simp only [hgi, hgj]
    rw [if_pos hne]
  · intro course tester n hn
    exact validatorV1_pass_sound hf course tester n .Loaded hn

/-- Witness for `validator_slug_checking` (conjunct on the V2 stage level)
at `hf := String.join`: a stage whose declared slug is `"BAD"` instead of
the expected `"0xcs"` makes the V2 machine fail immediately with both
slugs in the reason. -/
theorem validator_slug_checking_witness :
    validatorStepV2 String.join
        ⟨"c", "0xc", [⟨"s", "BAD", []⟩]⟩ (.Stage 0) =
      .Fail (invalidSlugMsg "BAD" (expectedSlug String.join ["c", "s"])) :=
  (validator_slug_checking String.join).2.2.1
    ⟨"c", "0xc", [⟨"s", "BAD", []⟩]⟩ 0 ⟨"s", "BAD", []⟩ rfl (by decide)

/-- C6 counterexample: the claim as stated — every level including course
and section is checked, and `Pass` is reached only after every node has
been checked — is false for `ValidatorV1`.  With `hf := String.join`, a
course whose course slug and section slug are both wrong (the correct ones
would begin with `"0x"`) still drives the V1 machine to `Pass` in six
steps, because only the lesson, suite and test slugs are compared. -/
theorem validatorV1_passes_unchecked_slugs :
    validatorStepNV1 String.join ⟨"c", "WRONG-COURSE"⟩
        ⟨[⟨"s", "WRONG-SECTION",
          [⟨"l", "0xcsl", some [⟨"u", "0xcslu", [⟨"t", "0xcslut"⟩]⟩]⟩]⟩]⟩
        6 .Loaded = .Pass ∧
    "WRONG-SECTION" ≠ expectedSlug String.join ["c", "s"] ∧
    "WRONG-COURSE" ≠ expectedSlug String.join ["c"] := by
  refine ⟨?_, by decide, by decide⟩
  rfl

theorem mem_indexMapInsert (m : List (String × TestState)) (k : String)
    (v : TestState) (kv : String × TestState)
    (h : kv ∈ indexMapInsert m k v) : kv ∈ m ∨ kv.1 = k := by
  rw [indexMapInsert] at h
  split_ifs at h with hany
  · rw [List.mem_map] at h
    obtain ⟨p, hp, hf⟩ := h
    by_cases hpk : p.1 = k
    · rw [if_pos hpk] at hf
      right
      rw [← hf]
      exact hpk
    · rw [if_neg hpk] at hf
      left
      rw [← hf]
      exact hp
  · rcases List.mem_append.mp h with hm | hk
    · exact Or.inl hm
    · right
      rw [List.mem_singleton.mp hk]

theorem mem_insertTest_foldl (cn : String) (sec : JsonSectionM)
    (les : JsonLessonM) :
    ∀ (tests : List JsonTestM) (acc : List (String × TestState))
      (kv : String × TestState),
      kv ∈ tests.foldl (insertTest cn sec les) acc →
      kv ∈ acc ∨ ∃ t ∈ tests, kv.1 = testKey cn sec les t
  | [], _, _, h => Or.inl h
  | test :: tests, acc, kv, h => by
      rw [List.foldl_cons] at h
      rcases mem_insertTest_foldl cn sec les tests _ kv h with hacc | ⟨t, ht, hk⟩
      · rcases mem_indexMapInsert _ _ _ kv hacc with hm | hk
        · exact Or.inl hm
        · exact Or.inr ⟨test, by simp, hk⟩
      · exact Or.inr ⟨t, by simp [ht], hk⟩

theorem mem_lessonStep (cn : String) (sec : JsonSectionM)
    (acc : List (String × TestState)) (les : JsonLessonM)
    (kv : String × TestState) (h : kv ∈ lessonStep cn sec acc les) :
    kv ∈ acc ∨ ∃ ts, les.tests = some ts ∧
      ∃ t ∈ ts, kv.1 = testKey cn sec les t := by
  rw [lessonStep] at h
  cases hts : les.tests with
  | none => rw [hts] at h; exact Or.inl h
  | some tests =>
      rw [hts] at h
      rcases mem_insertTest_foldl cn sec les tests acc kv h with hacc | hex
      · exact Or.inl hacc
      · exact Or.inr ⟨tests, rfl, hex⟩

theorem mem_lessonStep_foldl (cn : String) (sec : JsonSectionM) :
    ∀ (lessons : List JsonLessonM) (acc : List (String × TestState))
      (kv : String × TestState),
      kv ∈ lessons.foldl (lessonStep cn sec) acc →
      kv ∈ acc ∨ ∃ les ∈ lessons, ∃ ts, les.tests = some ts ∧
        ∃ t ∈ ts, kv.1 = testKey cn sec les t
  | [], _, _, h => Or.inl h
  | les :: lessons, acc, kv, h => by
      rw [List.foldl_cons] at h
      rcases mem_lessonStep_foldl cn sec lessons _ kv h with
        hacc | ⟨l, hl, hrest⟩
      · rcases mem_lessonStep cn sec acc les kv hacc with hm | hex
        · exact Or.inl hm
        · exact Or.inr ⟨les, by simp, hex⟩
      · exact Or.inr ⟨l, by simp [hl], hrest⟩

theorem mem_sectionStep_foldl (cn : String) :
    ∀ (secs : List JsonSectionM) (acc : List (String × TestState))
      (kv : String × TestState),
      kv ∈ secs.foldl (sectionStep cn) acc →
      kv ∈ acc ∨ ∃ sec ∈ secs, ∃ les ∈ sec.lessons, ∃ ts,
        les.tests = some ts ∧ ∃ t ∈ ts, kv.1 = testKey cn sec les t
  | [], _, _, h => Or.inl h
  | sec :: secs, acc, kv, h => by
      rw [List.foldl_cons] at h
      rcases mem_sectionStep_foldl cn secs _ kv h with hacc | ⟨s, hsm, hrest⟩
      · rcases mem_lessonStep_foldl cn sec sec.lessons acc kv hacc with
          hm | hex
        · exact Or.inl hm
        · exact Or.inr ⟨sec, by simp, hex⟩
      · exact Or.inr ⟨s, by simp [hsm], hrest⟩

/-- C8 (amended): every identity produced by `list_tests` is the literal
lowercase concatenation of the names in *leaf-to-root* order — test,
lesson, section, course — used directly as the store key (no hashing); two
tests are the same entity iff this concatenation coincides, since the key
*is* the concatenation. -/
theorem list_tests_key_leaf_to_root (td : TesterDefM)
    (kv : String × TestState) (h : kv ∈ list_tests td) :
    ∃ sec ∈ td.sections, ∃ les ∈ sec.lessons, ∃ ts,
      les.tests = some ts ∧ ∃ t ∈ ts,
        kv.1 = strToLower t.name ++ strToLower les.name ++
          strToLower sec.name ++ strToLower td.course_name := by
  rw [list_tests] at h
  rcases mem_sectionStep_foldl td.course_name td.sections [] kv h with
    hnil | hex
  · cases hnil
  · exact hex

/-- Witness for `list_tests_key_leaf_to_root` on the one-test tester
definition with course `"C"`, section `"S"`, lesson `"L"`, test `"T"`: the
produced key is `"tlsc"`. -/
theorem list_tests_key_leaf_to_root_witness :
    ∃ sec ∈ (⟨[⟨"S", "s1", [⟨"L", "l1",
        some [⟨"T", "t1", false, "cargo test", "f", "s"⟩]⟩]⟩],
        "C"⟩ : TesterDefM).sections,
      ∃ les ∈ sec.lessons, ∃ ts, les.tests = some ts ∧ ∃ t ∈ ts,
        ("tlsc" : String) = strToLower t.name ++ strToLower les.name ++
          strToLower sec.name ++ strToLower
          (⟨[⟨"S", "s1", [⟨"L", "l1",
            some [⟨"T", "t1", false, "cargo test", "f", "s"⟩]⟩]⟩],
            "C"⟩ : TesterDefM).course_name := by
  have h := list_tests_key_leaf_to_root
    ⟨[⟨"S", "s1", [⟨"L", "l1",
      some [⟨"T", "t1", false, "cargo test", "f", "s"⟩]⟩]⟩], "C"⟩
    (("tlsc" : String),
      { name := "T", slug := "t1", message_on_success := "s",
        message_on_fail := "f", cmd := ["cargo", "test"],
        path := [.Link "S", .Link "L", .Link "T", .Link "T"],
        passed := .Unkown, optional := false, lesson_slug := "l1" })
    (by decide)
  exact h

/-- C8 counterexample: the claim as stated is false.  For course `"c"`,
section `"s"`, lesson `"l"`, test `"t"`, the derived identity is `"tlsc"`
(leaf to root), which differs from the root-to-leaf concatenation
`"cslt"`; correspondingly `Monitor::into_runner` *reverses* the
user-supplied root-to-leaf path `"s/l/t"` into the search key `"tls"`. -/
theorem list_tests_key_not_root_to_leaf :
    (list_tests ⟨[⟨"s", "s1", [⟨"l", "l1",
        some [⟨"t", "t1", false, "x", "f", "s"⟩]⟩]⟩], "c"⟩).map Prod.fst =
      ["tlsc"] ∧
    ("tlsc" : String) ≠ "cslt" ∧
    searchKey "s/l/t" = "tls" := by
  refine ⟨by decide, by decide, by decide⟩
